import Mathlib

/-!
# yt-dlp updater launcher: embedding of `src/yt-dlp_updater.cpp`

The program is one straight-line `main` plus the helper `get_script_dir`.
Everything it does is an interaction with the host (console, filesystem,
child process), so the embedding is a pure function from a description of
the host to the sequence of observable actions and the exit code.

Conventions of the embedding.

* A byte of the child's output is a `Char`; the stream is a `List Char`.
* `std::size_t` is a `Nat` below `2 ^ 64`; `std::string::npos` is
  `2 ^ 64 - 1` and `npos + 1` wraps to `0`, which is what line 81 of the
  source relies on.
* The platform library (`std::filesystem`, `POPEN`, `PCLOSE`, the self-path
  query) is not part of the repository: its answers are fields of `Host`.
  Library calls are taken to return normally (no C++ exception is raised).
* The launcher only sees the value `PCLOSE` returns (`Child.status`); how
  that value comes from the exit code of the child depends on the build and
  is `pcloseOfExit`.
* `std::endl` is the character `'\n'` at the end of the printed string.
* The loop of lines 77-101 is modelled with a fuel counter; `none` means the
  fuel ran out and is shown never to happen with the fuel `main` supplies.
-/

namespace YtDlpUpdater

/-! ## Observable actions -/

/-- One observable action of the launcher. -/
inductive Event where
  /-- a string written to `std::cout` -/
  | out (s : String)
  /-- a string written to `std::cerr` -/
  | err (s : String)
  /-- one `std::cin.get()` -/
  | cinGet
  /-- `std::filesystem::current_path(dir)` -/
  | chdir (dir : String)
  /-- `POPEN(command, "r")` -/
  | popen (command : String)
  /-- `PCLOSE(pipe)` -/
  | pclose
  deriving DecidableEq, Repr

/-- What a finished run of the process looks like from outside. -/
structure Run where
  trace : List Event
  exitCode : Int
  deriving DecidableEq, Repr

/-- A spawned child as the launcher sees it. -/
structure Child where
  /-- the bytes the pipe delivers to `fgets` -/
  output : List Char
  /-- the value `PCLOSE` returns; `pcloseOfExit` gives it for a child that
  ends by exiting with a code -/
  status : Int

/-- Answers of the platform the launcher runs on. -/
structure Host where
  /-- whether `_WIN32` is defined -/
  win32 : Bool
  /-- `GetModuleFileNameA(NULL, ..)` resp. `readlink("/proc/self/exe", ..)`;
  `none` when the call reports failure (`0` resp. `-1`) -/
  selfPath : Option String
  /-- `std::filesystem::path(p).parent_path().string()` -/
  parent_path : String → String
  /-- `(std::filesystem::path(dir) / name).string()` -/
  pathAppend : String → String → String
  /-- `std::filesystem::exists` -/
  fileExists : String → Bool
  /-- `POPEN(command, "r")`; `none` is the null pipe -/
  spawn : String → Option Child

/-- The same host, with the spawn answering with the given child. -/
def Host.withChild (h : Host) (c : Child) : Host :=
  { h with spawn := fun _ => some c }

/-! ## `std::string` operations used by the source -/

/-- `std::string::npos` for a 64-bit `size_t`. -/
def npos : Nat := 2 ^ 64 - 1

/-- Search for `pat` in `s`, the first candidate position being `i`. -/
def findFrom (pat : List Char) : List Char → Nat → Nat
  | [], i => if pat = [] then i else npos
  | c :: s, i => if pat.isPrefixOf (c :: s) then i else findFrom pat s (i + 1)

/-- `s.find(pat)`: position of the first occurrence, or `npos`. -/
def find (s pat : List Char) : Nat := findFrom pat s 0

/-- Scan of a reversed string: `n` is the number of characters not yet
looked at, so the character at the head has index `n - 1`. -/
def lastNotOfRev (set : List Char) : List Char → Nat → Nat
  | [], _ => npos
  | c :: r, n => if c ∈ set then lastNotOfRev set r (n - 1) else n - 1

/-- `s.find_last_not_of(set)`: index of the last character that is not in
`set`, or `npos`. -/
def find_last_not_of (s set : List Char) : Nat :=
  lastNotOfRev set s.reverse s.length

/-- `s.erase(pos)`: drops everything from index `pos` on. -/
def erase (s : List Char) (pos : Nat) : List Char := s.take pos

/-- `std::string line(lineBuffer)`: the bytes before the first NUL. -/
def cstr (buf : List Char) : List Char := buf.takeWhile (fun c => c != '\x00')

/-- Line 81: `line.erase(line.find_last_not_of("\r\n") + 1)`, the addition
being done in `size_t`. -/
def trimLine (line : List Char) : List Char :=
  erase line ((find_last_not_of line ['\r', '\n'] + 1) % 2 ^ 64)

/-! ## `fgets` -/

/-- Reads at most `k` bytes, stopping after a newline. Returns the bytes
stored and the rest of the stream. -/
def fgetsAux : Nat → List Char → List Char × List Char
  | 0, s => ([], s)
  | _ + 1, [] => ([], [])
  | k + 1, c :: s =>
    if c = '\n' then ([c], s)
    else ((fgetsAux k s).1.cons c, (fgetsAux k s).2)

/-- `fgets(buf, size, stream)`: `none` is the null result at end of stream,
otherwise the bytes stored before the terminating NUL (at most `size - 1`)
and the rest of the stream. -/
def fgets (size : Nat) (stream : List Char) : Option (List Char × List Char) :=
  match stream with
  | [] => none
  | _ :: _ => some (fgetsAux (size - 1) stream)

/-! ## The messages -/

def phraseUpdating : List Char := "Updating to".toList
def phraseUpToDate : List Char := "yt-dlp is up to date".toList
def phraseUpdated : List Char := "Updated yt-dlp to".toList

def msgInProgress : String :=
  "\n> yt-dlp is being updated...\n\n\t- Do not close this window\n\t- Do not use the downloader during the process.\n"
def msgUpToDate : String :=
  "\n> yt-dlp is already up to date. You can close the window.\n"
def msgSuccess : String :=
  "\n> yt-dlp was successfully updated! Now you can close the window and start downloading.\n"
def msgNotFound : String := "> yt-dlp.exe not found.\n"
def msgExpected (path : String) : String := "> Expected path: " ++ path ++ "\n"
def msgTerminated : String := "\nProcess terminated. Press enter to exit..."
def msgChecking : String := "Checking for yt-dlp updates...\n"
def msgSpawnFailed : String := "Error: Failed to start yt-dlp update process.\n"
def msgReturned (returnCode : Int) : String :=
  "\n> Error: Update process returned code " ++ toString returnCode ++ "\n"
def msgPressEnter : String := "\nPress enter to exit..."

/-! ## The program -/

/-- `get_script_dir` (lines 19-38): the directory of the executable, or the
message printed before `std::exit(1)`. -/
def get_script_dir (h : Host) : Except (List Event) String :=
  match h.selfPath with
  | none =>
    if h.win32 then .error [.err "> Error getting module file name.\n"]
    else .error [.err "> Error getting executable path.\n"]
  | some p => .ok (h.parent_path p)

/-- Lines 77-81: one `fgets` into the 512-byte buffer, conversion to a
`std::string`, removal of the trailing line terminators. `none` when `fgets`
returns null. -/
def nextLine (stream : List Char) : Option (List Char × List Char) :=
  match fgets 512 stream with
  | none => none
  | some (lineBuffer, rest) => some (trimLine (cstr lineBuffer), rest)

/-- The `while` loop of lines 77-101 on the given stream. The result is the
list of messages printed and the part of the stream left unread; `none` only
when the fuel is used up. The flag `update_started` is written and never
read, so it has no counterpart here. -/
def readLoop : Nat → List Char → Option (List Event × List Char)
  | 0, _ => none
  | fuel + 1, stream =>
    match nextLine stream with
    | none => some ([], stream)
    | some (line, rest) =>
      if line = [] then readLoop fuel rest
      else if find line phraseUpdating ≠ npos then
        (readLoop fuel rest).map (fun r => (Event.out msgInProgress :: r.1, r.2))
      else if find line phraseUpToDate ≠ npos then
        some ([.out msgUpToDate], rest)
      else if find line phraseUpdated ≠ npos then
        some ([.out msgSuccess], rest)
      else readLoop fuel rest

/-- What lines 56-113 do once the companion executable has been found. -/
def runUpdate (h : Host) (script_dir yt_dlp_path : String) : Option Run :=
  let command := "\"" ++ yt_dlp_path ++ "\" -U"
  let start : List Event := [.out msgChecking, .chdir script_dir, .popen command]
  match h.spawn command with
  | none => some ⟨start ++ [.err msgSpawnFailed], 1⟩
  | some pipe =>
    match readLoop (pipe.output.length + 1) pipe.output with
    | none => none
    | some (printed, _) =>
      let returnCode := pipe.status
      some ⟨start ++ printed ++ [.pclose]
              ++ (if returnCode ≠ 0 then [.out (msgReturned returnCode)] else [])
              ++ [.out msgPressEnter, .cinGet], 0⟩

/-- The function `main` (lines 40-114). -/
def main (h : Host) : Option Run :=
  match get_script_dir h with
  | .error printed => some ⟨printed, 1⟩
  | .ok script_dir =>
    let yt_dlp_path := h.pathAppend script_dir "yt-dlp.exe"
    if !h.fileExists yt_dlp_path then
      some ⟨[.out msgNotFound, .out (msgExpected yt_dlp_path), .out msgTerminated, .cinGet], 1⟩
    else runUpdate h script_dir yt_dlp_path

/-! ## Notions used to state the properties -/

open List

/-- Lines 77-85 run to the end of the stream: the strings the loop looks at,
one per `fgets`, when nothing makes it stop early. `none` only when the fuel
is used up. -/
def readLines : Nat → List Char → Option (List (List Char))
  | 0, _ => none
  | fuel + 1, stream =>
    match nextLine stream with
    | none => some []
    | some (line, rest) => (readLines fuel rest).map (fun more => line :: more)

/-- The strings the loop looks at on a stream, with the fuel that suffices. -/
def linesOf (stream : List Char) : List (List Char) :=
  (readLines (stream.length + 1) stream).getD []

/-- Removal of the trailing `'\r'` and `'\n'` characters of a string. -/
def stripCRLF (s : List Char) : List Char :=
  s.rdropWhile (fun c => c == '\r' || c == '\n')

/-- The lines of a text, each `'\n'` ending one line; the terminators are
not part of the lines and a last line need not be terminated. -/
def splitLines : List Char → List (List Char)
  | [] => []
  | c :: s =>
    if c = '\n' then [] :: splitLines s
    else
      match splitLines s with
      | [] => [[c]]
      | l :: ls => (c :: l) :: ls

/-- The lines of the child output as the specification describes them: the
output split at `'\n'`, trailing line terminators removed. -/
def specLines (output : List Char) : List (List Char) :=
  (splitLines output).map stripCRLF

/-- The line classifier of the specification (section 4.1, "Classify
output"), on a list of whole lines: empty lines are skipped, the three
phrases are tried in order, the two terminal ones stop the reading. -/
def classifyLines : List (List Char) → List Event
  | [] => []
  | line :: more =>
    if line = [] then classifyLines more
    else if phraseUpdating <:+: line then Event.out msgInProgress :: classifyLines more
    else if phraseUpToDate <:+: line then [Event.out msgUpToDate]
    else if phraseUpdated <:+: line then [Event.out msgSuccess]
    else classifyLines more

/-- A line that makes the loop stop: it has one of the two terminal phrases
and not `"Updating to"`. -/
def Stops (line : List Char) : Prop :=
  ¬ phraseUpdating <:+: line ∧ (phraseUpToDate <:+: line ∨ phraseUpdated <:+: line)

instance (line : List Char) : Decidable (Stops line) := by
  unfold Stops
  infer_instance

/-- The two notices that end the reading. -/
def IsTerminalNotice (e : Event) : Prop :=
  e = Event.out msgUpToDate ∨ e = Event.out msgSuccess

instance (e : Event) : Decidable (IsTerminalNotice e) := by
  unfold IsTerminalNotice
  infer_instance

/-- The three status notices of the classifier. -/
def IsNotice (e : Event) : Prop :=
  e = Event.out msgInProgress ∨ IsTerminalNotice e

instance (e : Event) : Decidable (IsNotice e) := by
  unfold IsNotice
  infer_instance

/-- The in-progress notices of a list of lines, one for each line with
`"Updating to"`. -/
def progressNotices (ls : List (List Char)) : List Event :=
  (ls.filter (fun l => decide (phraseUpdating <:+: l))).map (fun _ => Event.out msgInProgress)

/-- The notice printed for a line that stops the loop. -/
def terminalNotice (line : List Char) : Event :=
  if phraseUpToDate <:+: line then Event.out msgUpToDate else Event.out msgSuccess

/-! ## Concrete hosts for the examples -/

/-- The directory part of a path written with `/` that has a directory part:
what is in front of the last `/`. -/
def dirOf (p : String) : String :=
  String.mk ((p.data.reverse.dropWhile (fun c => c != '/')).drop 1).reverse

/-- A host on which the executable is `/opt/vd/updater`, the companion
exists, and the spawn yields the given child. -/
def demoHost (c : Child) : Host where
  win32 := false
  selfPath := some "/opt/vd/updater"
  parent_path := dirOf
  pathAppend := fun d n => d ++ "/" ++ n
  fileExists := fun _ => true
  spawn := fun _ => some c

/-- A host whose install directory `/opt/vd` holds no `yt-dlp.exe`. -/
def bareHost : Host where
  win32 := false
  selfPath := some "/opt/vd/updater"
  parent_path := dirOf
  pathAppend := fun d n => d ++ "/" ++ n
  fileExists := fun _ => false
  spawn := fun _ => none

/-- A host on which the launcher cannot find out where it is installed. -/
def lostHost : Host where
  win32 := false
  selfPath := none
  parent_path := dirOf
  pathAppend := fun d n => d ++ "/" ++ n
  fileExists := fun _ => false
  spawn := fun _ => none

theorem findFrom_absent (pat : List Char) :
    ∀ (s : List Char) (i : Nat), ¬ pat <:+: s → findFrom pat s i = npos := by
  intro s
  induction s with
  | nil =>
    intro i h
    have hp : pat ≠ [] := fun e => h (by simp [e])
    simp [findFrom, hp]
  | cons c s ih =>
    intro i h
    rw [List.infix_cons_iff, not_or] at h
    have h1 : pat.isPrefixOf (c :: s) = false := by
      rw [Bool.eq_false_iff]
      intro e
      exact h.1 (List.isPrefixOf_iff_prefix.mp e)
    simp only [findFrom, h1, Bool.false_eq_true, if_false]
    exact ih (i + 1) h.2

theorem findFrom_present (pat : List Char) :
    ∀ (s : List Char) (i : Nat), pat <:+: s → findFrom pat s i ≤ i + s.length := by
  intro s
  induction s with
  | nil =>
    intro i h
    have hp : pat = [] := List.infix_nil.mp h
    simp [findFrom, hp]
  | cons c s ih =>
    intro i h
    by_cases h1 : pat.isPrefixOf (c :: s) = true
    · simp [findFrom, h1]
    · have h2 : pat <:+: s := by
        rcases List.infix_cons_iff.mp h with hpre | hin
        · exact absurd (List.isPrefixOf_iff_prefix.mpr hpre) h1
        · exact hin
      have := ih (i + 1) h2
      have h1' : pat.isPrefixOf (c :: s) = false := Bool.eq_false_iff.mpr h1
      simp only [findFrom, h1', Bool.false_eq_true, if_false, List.length_cons]
      omega

/-- On strings shorter than `npos`, `s.find(pat) != npos` says that `pat`
occurs in `s`. -/
theorem find_ne_npos_iff (s pat : List Char) (hs : s.length < npos) :
    find s pat ≠ npos ↔ pat <:+: s := by
  constructor
  · intro h
    by_contra hn
    exact h (findFrom_absent pat s 0 hn)
  · intro h e
    have := findFrom_present pat s 0 h
    unfold find at e
    omega

theorem lastNotOfRev_eq (set : List Char) :
    ∀ (r : List Char) (n : Nat), r.length ≤ n →
      lastNotOfRev set r n =
        if r.dropWhile (fun c => decide (c ∈ set)) = [] then npos
        else n - r.length + (r.dropWhile (fun c => decide (c ∈ set))).length - 1 := by
  intro r
  induction r with
  | nil => intro n _; simp [lastNotOfRev]
  | cons c r ih =>
    intro n hn
    simp only [List.length_cons] at hn
    by_cases hc : c ∈ set
    · have := ih (n - 1) (by omega)
      simp only [lastNotOfRev, hc, if_true, List.dropWhile_cons, decide_True, this,
        List.length_cons]
      split
      · rfl
      · congr 1
        omega
    · simp [lastNotOfRev, hc, List.dropWhile_cons]
      omega

/-- Line 81 removes exactly the trailing line terminators. -/
theorem trimLine_eq (s : List Char) (hs : s.length < npos) : trimLine s = stripCRLF s := by
  have hp : (fun c : Char => decide (c ∈ ['\r', '\n'])) = (fun c => c == '\r' || c == '\n') := by
    funext c
    by_cases h1 : c = '\r' <;> by_cases h2 : c = '\n' <;> simp [h1, h2]
  unfold trimLine find_last_not_of erase stripCRLF List.rdropWhile
  rw [lastNotOfRev_eq _ _ _ (by simp), hp]
  generalize hd : List.dropWhile (fun c => c == '\r' || c == '\n') s.reverse = d
  have hsuf : d <:+ s.reverse := hd ▸ List.dropWhile_suffix _
  have hlen : d.length ≤ s.length := by simpa using hsuf.length_le
  by_cases hnil : d = []
  · subst hnil
    simp [npos]
  · have hpos : 0 < d.length := List.length_pos.mpr hnil
    simp only [hnil, if_false, List.length_reverse]
    have e1 : (s.length - s.length + d.length - 1 + 1) % 2 ^ 64 = d.length := by
      have : s.length - s.length + d.length - 1 + 1 = d.length := by omega
      rw [this]
      apply Nat.mod_eq_of_lt
      unfold npos at hs
      omega
    rw [e1]
    obtain ⟨t, ht⟩ := hsuf
    have hs' : s = d.reverse ++ t.reverse := by
      have := congrArg List.reverse ht
      simpa using this.symm
    rw [hs']
    have : d.length = d.reverse.length := by simp
    rw [this, List.take_left]

/-! ## Facts about `fgets` -/

theorem fgetsAux_append (k : Nat) :
    ∀ s : List Char, (fgetsAux k s).1 ++ (fgetsAux k s).2 = s := by
  induction k with
  | zero => intro s; simp [fgetsAux]
  | succ k ih =>
    intro s
    cases s with
    | nil => simp [fgetsAux]
    | cons c s =>
      by_cases hc : c = '\n'
      · simp [fgetsAux, hc]
      · simp [fgetsAux, hc, ih s]

theorem fgetsAux_length_le (k : Nat) :
    ∀ s : List Char, (fgetsAux k s).1.length ≤ k := by
  induction k with
  | zero => intro s; simp [fgetsAux]
  | succ k ih =>
    intro s
    cases s with
    | nil => simp [fgetsAux]
    | cons c s =>
      by_cases hc : c = '\n'
      · simp [fgetsAux, hc]
      · simpa [fgetsAux, hc] using ih s

/-- A read that finds a newline among the first `k` bytes stops after it. -/
theorem fgetsAux_newline (k : Nat) :
    ∀ (a x : List Char), '\n' ∉ a → a.length < k →
      fgetsAux k (a ++ '\n' :: x) = (a ++ ['\n'], x) := by
  induction k with
  | zero => intro a x _ h; omega
  | succ k ih =>
    intro a x ha hlen
    cases a with
    | nil => simp [fgetsAux]
    | cons c a =>
      have hc : c ≠ '\n' := fun e => ha (by simp [e])
      have ha' : '\n' ∉ a := fun e => ha (by simp [e])
      have := ih a x ha' (by simpa using hlen)
      simp [fgetsAux, hc, this]

/-- A read that meets no newline among `k` bytes stops when the buffer is full. -/
theorem fgetsAux_full (k : Nat) :
    ∀ (a x : List Char), '\n' ∉ a → a.length = k → fgetsAux k (a ++ x) = (a, x) := by
  induction k with
  | zero =>
    intro a x _ h
    have : a = [] := List.length_eq_zero.mp h
    simp [this, fgetsAux]
  | succ k ih =>
    intro a x ha hlen
    cases a with
    | nil => simp at hlen
    | cons c a =>
      have hc : c ≠ '\n' := fun e => ha (by simp [e])
      have ha' : '\n' ∉ a := fun e => ha (by simp [e])
      have := ih a x ha' (by simpa using hlen)
      simp [fgetsAux, hc, this]

/-- A read that meets the end of the stream first returns what was left. -/
theorem fgetsAux_eof (k : Nat) :
    ∀ a : List Char, '\n' ∉ a → a.length ≤ k → fgetsAux k a = (a, []) := by
  induction k with
  | zero =>
    intro a _ h
    have : a = [] := List.length_eq_zero.mp (by omega)
    simp [this, fgetsAux]
  | succ k ih =>
    intro a ha hlen
    cases a with
    | nil => simp [fgetsAux]
    | cons c a =>
      have hc : c ≠ '\n' := fun e => ha (by simp [e])
      have ha' : '\n' ∉ a := fun e => ha (by simp [e])
      have := ih a ha' (by simpa using hlen)
      simp [fgetsAux, hc, this]

/-- The three ways a stream presents itself to a read of at most `k` bytes. -/
theorem stream_shape (k : Nat) :
    ∀ s : List Char, ∃ a x, '\n' ∉ a ∧
      ((s = a ++ '\n' :: x ∧ a.length < k) ∨ (s = a ++ x ∧ a.length = k) ∨
        (s = a ∧ x = [] ∧ a.length < k)) := by
  induction k with
  | zero => intro s; exact ⟨[], s, by simp, Or.inr (Or.inl ⟨by simp, rfl⟩)⟩
  | succ k ih =>
    intro s
    cases s with
    | nil => exact ⟨[], [], by simp, Or.inr (Or.inr ⟨rfl, rfl, by simp⟩)⟩
    | cons c s =>
      by_cases hc : c = '\n'
      · exact ⟨[], s, by simp, Or.inl ⟨by simp [hc], by simp⟩⟩
      · obtain ⟨a, x, ha, h⟩ := ih s
        have hca : '\n' ∉ c :: a := by
          intro hm
          rcases List.mem_cons.mp hm with e | e
          · exact hc e.symm
          · exact ha e
        refine ⟨c :: a, x, hca, ?_⟩
        rcases h with ⟨e, hl⟩ | ⟨e, hl⟩ | ⟨e, hx, hl⟩
        · exact Or.inl ⟨by simp [e], by simpa using hl⟩
        · exact Or.inr (Or.inl ⟨by simp [e], by simpa using hl⟩)
        · exact Or.inr (Or.inr ⟨by simp [e], hx, by simpa using hl⟩)

/-- The result of `fgets` on a stream, by the shape of the stream. -/
theorem fgets_cases (s : List Char) :
    (s = [] ∧ fgets 512 s = none) ∨
    (∃ a x, '\n' ∉ a ∧ a.length < 511 ∧ s = a ++ '\n' :: x ∧
      fgets 512 s = some (a ++ ['\n'], x)) ∨
    (∃ a x, '\n' ∉ a ∧ a.length = 511 ∧ s = a ++ x ∧ fgets 512 s = some (a, x)) ∨
    (∃ a, '\n' ∉ a ∧ a ≠ [] ∧ a.length < 511 ∧ s = a ∧ fgets 512 s = some (a, [])) := by
  cases s with
  | nil => exact Or.inl ⟨rfl, rfl⟩
  | cons c s =>
    right
    obtain ⟨a, x, ha, h⟩ := stream_shape 511 (c :: s)
    have hf : fgets 512 (c :: s) = some (fgetsAux 511 (c :: s)) := rfl
    rcases h with ⟨e, hl⟩ | ⟨e, hl⟩ | ⟨e, _, hl⟩
    · exact Or.inl ⟨a, x, ha, hl, e, by rw [hf, e, fgetsAux_newline 511 a x ha hl]⟩
    · exact Or.inr (Or.inl ⟨a, x, ha, hl, e, by rw [hf, e, fgetsAux_full 511 a x ha hl]⟩)
    · refine Or.inr (Or.inr ⟨a, ha, ?_, hl, e, ?_⟩)
      · rw [← e]; simp
      · rw [hf, e, fgetsAux_eof 511 a ha (by omega)]

theorem cstr_pre (buf : List Char) : cstr buf <+: buf :=
  List.takeWhile_prefix _

theorem cstr_of_no_nul (buf : List Char) (h : '\x00' ∉ buf) : cstr buf = buf := by
  unfold cstr
  rw [List.takeWhile_eq_self_iff]
  intro c hc
  have : c ≠ '\x00' := fun e => h (e ▸ hc)
  simpa using this

theorem trimLine_pre (s : List Char) : trimLine s <+: s :=
  List.take_prefix _ _

theorem nextLine_nil : nextLine [] = none := rfl

theorem nextLine_eq_none {s : List Char} (h : nextLine s = none) : s = [] := by
  cases s with
  | nil => rfl
  | cons c s => simp [nextLine, fgets] at h

/-- A successful read yields a string of at most 511 characters and leaves a
strictly shorter stream, an end of the one it was given. -/
theorem nextLine_some {s line rest : List Char} (h : nextLine s = some (line, rest)) :
    line.length ≤ 511 ∧ rest.length < s.length ∧ rest <:+ s := by
  cases s with
  | nil => simp [nextLine, fgets] at h
  | cons c s =>
    simp only [nextLine, fgets, Option.some.injEq, Prod.mk.injEq] at h
    obtain ⟨h1, h2⟩ := h
    change trimLine (cstr (fgetsAux 511 (c :: s)).1) = line at h1
    change (fgetsAux 511 (c :: s)).2 = rest at h2
    have happ := fgetsAux_append 511 (c :: s)
    have hlen := fgetsAux_length_le 511 (c :: s)
    have hpos : 0 < (fgetsAux 511 (c :: s)).1.length := by
      by_cases hc : c = '\n' <;> simp [fgetsAux, hc]
    refine ⟨?_, ?_, ?_⟩
    · rw [← h1]
      have h3 := (trimLine_pre (cstr (fgetsAux 511 (c :: s)).1)).length_le
      have h4 := (cstr_pre (fgetsAux 511 (c :: s)).1).length_le
      show (trimLine (cstr (fgetsAux 511 (c :: s)).1)).length ≤ 511
      omega
    · rw [← h2]
      have := congrArg List.length happ
      simp only [List.length_append] at this
      omega
    · rw [← h2]
      exact ⟨_, happ⟩

theorem nextLine_line_lt {s line rest : List Char} (h : nextLine s = some (line, rest)) :
    line.length < npos := by
  have := (nextLine_some h).1
  unfold npos
  omega

/-! ## The loop, line by line -/

/-- Induction along the successive reads of a stream. -/
theorem stream_induction {P : List Char → Prop} (hnil : P [])
    (hstep : ∀ s line rest, nextLine s = some (line, rest) → P rest → P s) :
    ∀ s, P s := by
  have key : ∀ (n : Nat) (s : List Char), s.length = n → P s := by
    intro n
    induction n using Nat.strong_induction_on with
    | _ n ih =>
      intro s hn
      cases hl : nextLine s with
      | none => rw [nextLine_eq_none hl]; exact hnil
      | some p =>
        obtain ⟨line, rest⟩ := p
        have := (nextLine_some hl).2.1
        exact hstep s line rest hl (ih rest.length (by omega) rest rfl)
  exact fun s => key s.length s rfl

theorem readLines_succ {s line rest : List Char} (f : Nat)
    (h : nextLine s = some (line, rest)) :
    readLines (f + 1) s = (readLines f rest).map (fun more => line :: more) := by
  simp [readLines, h]

/-- With more fuel than bytes the reading reaches the end of the stream, and
the result does not depend on the fuel. -/
theorem readLines_fuel :
    ∀ (s : List Char) (f g : Nat), s.length < f → s.length < g →
      readLines f s = readLines g s ∧ ∃ ls, readLines f s = some ls := by
  intro s
  induction s using stream_induction with
  | hnil =>
    intro f g hf hg
    obtain ⟨f, rfl⟩ : ∃ k, f = k + 1 := ⟨f - 1, by omega⟩
    obtain ⟨g, rfl⟩ : ∃ k, g = k + 1 := ⟨g - 1, by omega⟩
    exact ⟨rfl, [], rfl⟩
  | hstep s line rest hl ih =>
    intro f g hf hg
    have hlt := (nextLine_some hl).2.1
    obtain ⟨f, rfl⟩ : ∃ k, f = k + 1 := ⟨f - 1, by omega⟩
    obtain ⟨g, rfl⟩ : ∃ k, g = k + 1 := ⟨g - 1, by omega⟩
    obtain ⟨e, ls, hls⟩ := ih f g (by omega) (by omega)
    rw [readLines_succ f hl, readLines_succ g hl, e]
    refine ⟨rfl, line :: ls, ?_⟩
    rw [← e, hls]
    rfl

theorem readLines_eq (s : List Char) (f : Nat) (hf : s.length < f) :
    readLines f s = some (linesOf s) := by
  obtain ⟨e, ls, hls⟩ := readLines_fuel s f (s.length + 1) hf (by omega)
  unfold linesOf
  rw [← e, hls]
  rfl

theorem linesOf_nil : linesOf [] = [] := rfl

theorem linesOf_step {s line rest : List Char} (h : nextLine s = some (line, rest)) :
    linesOf s = line :: linesOf rest := by
  have h1 := readLines_eq s (s.length + 1) (by omega)
  have h2 := readLines_eq rest s.length (nextLine_some h).2.1
  rw [readLines_succ _ h, h2] at h1
  simpa using h1.symm

/-- One turn of the loop, the tests on the line written as occurrences of
the phrases. -/
theorem readLoop_succ {s line rest : List Char} (f : Nat)
    (h : nextLine s = some (line, rest)) :
    readLoop (f + 1) s =
      if line = [] then readLoop f rest
      else if phraseUpdating <:+: line then
        (readLoop f rest).map (fun r => (Event.out msgInProgress :: r.1, r.2))
      else if phraseUpToDate <:+: line then some ([Event.out msgUpToDate], rest)
      else if phraseUpdated <:+: line then some ([Event.out msgSuccess], rest)
      else readLoop f rest := by
  have hlt := nextLine_line_lt h
  simp only [readLoop, h, find_ne_npos_iff line _ hlt]

/-- The loop prints what the line classifier prints on the strings read. -/
theorem readLoop_classify :
    ∀ (s : List Char) (f : Nat), s.length < f →
      ∃ r, readLoop f s = some (classifyLines (linesOf s), r) ∧ r <:+ s := by
  intro s
  induction s using stream_induction with
  | hnil =>
    intro f hf
    obtain ⟨f, rfl⟩ : ∃ k, f = k + 1 := ⟨f - 1, by omega⟩
    exact ⟨[], rfl, List.suffix_refl _⟩
  | hstep s line rest hl ih =>
    intro f hf
    obtain ⟨hlen, hlt, hsuf⟩ := nextLine_some hl
    obtain ⟨f, rfl⟩ : ∃ k, f = k + 1 := ⟨f - 1, by omega⟩
    obtain ⟨r, hr, hrs⟩ := ih f (by omega)
    rw [readLoop_succ f hl, linesOf_step hl]
    simp only [classifyLines]
    split_ifs
    · exact ⟨r, hr, hrs.trans hsuf⟩
    · exact ⟨r, by simp [hr], hrs.trans hsuf⟩
    · exact ⟨rest, rfl, hsuf⟩
    · exact ⟨rest, rfl, hsuf⟩
    · exact ⟨r, hr, hrs.trans hsuf⟩

/-! ## The four ways through `main` -/

theorem main_self_fail (h : Host) (hs : h.selfPath = none) :
    main h = some ⟨[Event.err (if h.win32 then "> Error getting module file name.\n"
      else "> Error getting executable path.\n")], 1⟩ := by
  cases hw : h.win32 <;> simp [main, get_script_dir, hs, hw]

theorem main_missing (h : Host) (p : String) (hs : h.selfPath = some p)
    (hm : h.fileExists (h.pathAppend (h.parent_path p) "yt-dlp.exe") = false) :
    main h = some ⟨[Event.out msgNotFound,
      Event.out (msgExpected (h.pathAppend (h.parent_path p) "yt-dlp.exe")),
      Event.out msgTerminated, Event.cinGet], 1⟩ := by
  simp [main, get_script_dir, hs, hm]

theorem main_spawn_fail (h : Host) (p : String) (hs : h.selfPath = some p)
    (hm : h.fileExists (h.pathAppend (h.parent_path p) "yt-dlp.exe") = true)
    (hp : h.spawn ("\"" ++ h.pathAppend (h.parent_path p) "yt-dlp.exe" ++ "\" -U") = none) :
    main h = some ⟨[Event.out msgChecking, Event.chdir (h.parent_path p),
      Event.popen ("\"" ++ h.pathAppend (h.parent_path p) "yt-dlp.exe" ++ "\" -U"),
      Event.err msgSpawnFailed], 1⟩ := by
  simp [main, get_script_dir, hs, hm, runUpdate, hp]

theorem main_child (h : Host) (p : String) (c : Child) (hs : h.selfPath = some p)
    (hm : h.fileExists (h.pathAppend (h.parent_path p) "yt-dlp.exe") = true)
    (hp : h.spawn ("\"" ++ h.pathAppend (h.parent_path p) "yt-dlp.exe" ++ "\" -U") = some c) :
    main h = some ⟨[Event.out msgChecking, Event.chdir (h.parent_path p),
        Event.popen ("\"" ++ h.pathAppend (h.parent_path p) "yt-dlp.exe" ++ "\" -U")]
      ++ classifyLines (linesOf c.output) ++ [Event.pclose]
      ++ (if c.status ≠ 0 then [Event.out (msgReturned c.status)] else [])
      ++ [Event.out msgPressEnter, Event.cinGet], 0⟩ := by
  obtain ⟨r, hr, _⟩ := readLoop_classify c.output (c.output.length + 1) (by omega)
  simp [main, get_script_dir, hs, hm, runUpdate, hp, hr]

/-- The function `main` returns on every host. -/
theorem main_total (h : Host) : ∃ run, main h = some run := by
  cases hs : h.selfPath with
  | none => exact ⟨_, main_self_fail h hs⟩
  | some p =>
    cases hm : h.fileExists (h.pathAppend (h.parent_path p) "yt-dlp.exe") with
    | false => exact ⟨_, main_missing h p hs hm⟩
    | true =>
      cases hp : h.spawn ("\"" ++ h.pathAppend (h.parent_path p) "yt-dlp.exe" ++ "\" -U") with
      | none => exact ⟨_, main_spawn_fail h p hs hm hp⟩
      | some c => exact ⟨_, main_child h p c hs hm hp⟩

/-! ## The reads of a stream and its lines -/

theorem nextLine_newline (a x : List Char) (ha : '\n' ∉ a) (hl : a.length < 511) :
    nextLine (a ++ '\n' :: x) = some (trimLine (cstr (a ++ ['\n'])), x) := by
  have hf : fgets 512 (a ++ '\n' :: x) = some (a ++ ['\n'], x) := by
    cases a with
    | nil => rfl
    | cons c a =>
      show some (fgetsAux 511 (c :: a ++ '\n' :: x)) = _
      rw [fgetsAux_newline 511 (c :: a) x ha hl]
  simp [nextLine, hf]

theorem nextLine_full (a x : List Char) (ha : '\n' ∉ a) (hl : a.length = 511) :
    nextLine (a ++ x) = some (trimLine (cstr a), x) := by
  have hf : fgets 512 (a ++ x) = some (a, x) := by
    cases a with
    | nil => simp at hl
    | cons c a =>
      show some (fgetsAux 511 (c :: a ++ x)) = _
      rw [fgetsAux_full 511 (c :: a) x ha hl]
  simp [nextLine, hf]

theorem nextLine_eof (a : List Char) (ha : '\n' ∉ a) (hne : a ≠ []) (hl : a.length ≤ 511) :
    nextLine a = some (trimLine (cstr a), []) := by
  have hf : fgets 512 a = some (a, []) := by
    cases a with
    | nil => exact absurd rfl hne
    | cons c a =>
      show some (fgetsAux 511 (c :: a)) = _
      rw [fgetsAux_eof 511 (c :: a) ha hl]
  simp [nextLine, hf]

/-- The three ways a read succeeds: a whole line with its newline, a full
buffer, or the unterminated end of the stream. -/
theorem nextLine_cases {s line rest : List Char} (h : nextLine s = some (line, rest)) :
    (∃ a, '\n' ∉ a ∧ a.length < 511 ∧ s = a ++ '\n' :: rest ∧
      line = trimLine (cstr (a ++ ['\n']))) ∨
    (∃ a, '\n' ∉ a ∧ a.length = 511 ∧ s = a ++ rest ∧ line = trimLine (cstr a)) ∨
    (∃ a, '\n' ∉ a ∧ a ≠ [] ∧ a.length < 511 ∧ s = a ∧ rest = [] ∧
      line = trimLine (cstr a)) := by
  rcases fgets_cases s with ⟨e, _⟩ | ⟨a, x, ha, hl, e, _⟩ | ⟨a, x, ha, hl, e, _⟩ |
      ⟨a, ha, hne, hl, e, _⟩
  · rw [e, nextLine_nil] at h
    cases h
  · rw [e, nextLine_newline a x ha hl] at h
    simp only [Option.some.injEq, Prod.mk.injEq] at h
    exact Or.inl ⟨a, ha, hl, by rw [e, h.2], h.1.symm⟩
  · rw [e, nextLine_full a x ha hl] at h
    simp only [Option.some.injEq, Prod.mk.injEq] at h
    exact Or.inr (Or.inl ⟨a, ha, hl, by rw [e, h.2], h.1.symm⟩)
  · rw [e, nextLine_eof a ha hne (by omega)] at h
    simp only [Option.some.injEq, Prod.mk.injEq] at h
    exact Or.inr (Or.inr ⟨a, ha, hne, hl, e, h.2.symm, h.1.symm⟩)

theorem stripCRLF_newline (a : List Char) : stripCRLF (a ++ ['\n']) = stripCRLF a := by
  unfold stripCRLF
  rw [List.rdropWhile_concat]
  simp

/-- The string classified after a read of at most 511 bytes. -/
theorem trimLine_cstr_eq (buf : List Char) (h : buf.length ≤ 511) :
    trimLine (cstr buf) = stripCRLF (cstr buf) := by
  apply trimLine_eq
  have := (cstr_pre buf).length_le
  unfold npos
  omega

theorem splitLines_cons_ne (c : Char) (s : List Char) (hc : c ≠ '\n') :
    splitLines (c :: s) =
      match splitLines s with
      | [] => [[c]]
      | l :: ls => (c :: l) :: ls := by
  simp [splitLines, hc]

/-- A line and its terminator come off the front of the text. -/
theorem splitLines_newline :
    ∀ (a x : List Char), '\n' ∉ a → splitLines (a ++ '\n' :: x) = a :: splitLines x := by
  intro a
  induction a with
  | nil => intro x _; simp [splitLines]
  | cons c a ih =>
    intro x ha
    have hc : c ≠ '\n' := fun e => ha (by simp [e])
    have ha' : '\n' ∉ a := fun e => ha (by simp [e])
    rw [List.cons_append, splitLines_cons_ne c _ hc, ih x ha']

/-- A text without newline is one line. -/
theorem splitLines_single : ∀ a : List Char, '\n' ∉ a → a ≠ [] → splitLines a = [a] := by
  intro a
  induction a with
  | nil => intro _ h; exact absurd rfl h
  | cons c a ih =>
    intro ha _
    have hc : c ≠ '\n' := fun e => ha (by simp [e])
    have ha' : '\n' ∉ a := fun e => ha (by simp [e])
    rw [splitLines_cons_ne c _ hc]
    cases a with
    | nil => rfl
    | cons d a => rw [ih ha' (by simp)]

/-- Bytes without newline in front of a text lengthen its first line. -/
theorem splitLines_front :
    ∀ (a x : List Char), '\n' ∉ a → a ≠ [] →
      ∃ m, a <+: m ∧
        ((splitLines x = [] ∧ splitLines (a ++ x) = [m]) ∨
         (∃ l ls, splitLines x = l :: ls ∧ l <:+ m ∧ splitLines (a ++ x) = m :: ls)) := by
  intro a
  induction a with
  | nil => intro _ _ h; exact absurd rfl h
  | cons c a ih =>
    intro x ha _
    have hc : c ≠ '\n' := fun e => ha (by simp [e])
    have ha' : '\n' ∉ a := fun e => ha (by simp [e])
    rw [List.cons_append, splitLines_cons_ne c _ hc]
    cases a with
    | nil =>
      simp only [List.nil_append]
      cases hx : splitLines x with
      | nil => exact ⟨[c], List.prefix_refl _, Or.inl ⟨rfl, rfl⟩⟩
      | cons l ls =>
        exact ⟨c :: l, by simp, Or.inr ⟨l, ls, rfl, List.suffix_cons c l, rfl⟩⟩
    | cons d a =>
      obtain ⟨m, hm, h⟩ := ih x ha' (by simp)
      rcases h with ⟨h1, h2⟩ | ⟨l, ls, h1, h2, h3⟩
      · rw [h2]
        exact ⟨c :: m, by simpa using hm, Or.inl ⟨h1, rfl⟩⟩
      · rw [h3]
        exact ⟨c :: m, by simpa using hm,
          Or.inr ⟨l, ls, h1, h2.trans (List.suffix_cons c m), rfl⟩⟩

/-- Each string the loop looks at has at most 511 characters. -/
theorem linesOf_length_le :
    ∀ s : List Char, ∀ line ∈ linesOf s, line.length ≤ 511 := by
  intro s
  induction s using stream_induction with
  | hnil => intro line h; simp [linesOf_nil] at h
  | hstep s l rest hl ih =>
    intro line hmem
    rw [linesOf_step hl] at hmem
    rcases List.mem_cons.mp hmem with e | hin
    · rw [e]; exact (nextLine_some hl).1
    · exact ih line hin

/-! ## The line classifier -/

theorem not_infix_nil {pat : List Char} (h : pat ≠ []) : ¬ pat <:+: ([] : List Char) :=
  fun hin => h (List.infix_nil.mp hin)

theorem classifyLines_cons_quiet (line : List Char) (more : List (List Char))
    (h : ¬ Stops line) :
    classifyLines (line :: more) = progressNotices [line] ++ classifyLines more := by
  unfold Stops at h
  by_cases he : line = []
  · subst he
    have : ¬ phraseUpdating <:+: ([] : List Char) := not_infix_nil (by decide)
    simp [classifyLines, progressNotices, this]
  · by_cases h1 : phraseUpdating <:+: line
    · simp [classifyLines, progressNotices, he, h1]
    · have h2 : ¬ phraseUpToDate <:+: line := fun x => h ⟨h1, Or.inl x⟩
      have h3 : ¬ phraseUpdated <:+: line := fun x => h ⟨h1, Or.inr x⟩
      simp [classifyLines, progressNotices, he, h1, h2, h3]

theorem classifyLines_cons_stop (line : List Char) (more : List (List Char))
    (h : Stops line) : classifyLines (line :: more) = [terminalNotice line] := by
  obtain ⟨h1, h2⟩ := h
  have he : line ≠ [] := by
    rintro rfl
    rcases h2 with h2 | h2
    · exact not_infix_nil (by decide) h2
    · exact not_infix_nil (by decide) h2
  by_cases h3 : phraseUpToDate <:+: line
  · simp [classifyLines, terminalNotice, he, h1, h3]
  · have h4 : phraseUpdated <:+: line := h2.resolve_left h3
    simp [classifyLines, terminalNotice, he, h1, h3, h4]

theorem progressNotices_append (xs ys : List (List Char)) :
    progressNotices (xs ++ ys) = progressNotices xs ++ progressNotices ys := by
  simp [progressNotices]

/-- Lines that do not stop the loop only contribute in-progress notices. -/
theorem classifyLines_quiet (pre more : List (List Char)) (h : ∀ x ∈ pre, ¬ Stops x) :
    classifyLines (pre ++ more) = progressNotices pre ++ classifyLines more := by
  induction pre with
  | nil => simp [progressNotices]
  | cons x pre ih =>
    have hx : ¬ Stops x := h x (by simp)
    have hpre : ∀ y ∈ pre, ¬ Stops y := fun y hy => h y (by simp [hy])
    rw [List.cons_append, classifyLines_cons_quiet x _ hx, ih hpre,
      show x :: pre = [x] ++ pre from rfl, progressNotices_append, List.append_assoc]

/-- What is printed when the first stopping line is `l`. -/
theorem classifyLines_first_stop (pre : List (List Char)) (l : List Char)
    (post : List (List Char)) (h : ∀ x ∈ pre, ¬ Stops x) (hl : Stops l) :
    classifyLines (pre ++ l :: post) = progressNotices pre ++ [terminalNotice l] := by
  rw [classifyLines_quiet pre _ h, classifyLines_cons_stop l post hl]

theorem classifyLines_no_stop (ls : List (List Char)) (h : ∀ x ∈ ls, ¬ Stops x) :
    classifyLines ls = progressNotices ls := by
  have := classifyLines_quiet ls [] h
  simpa [classifyLines] using this

theorem terminalNotice_isTerminal (l : List Char) : IsTerminalNotice (terminalNotice l) := by
  unfold terminalNotice IsTerminalNotice
  split
  · exact Or.inl rfl
  · exact Or.inr rfl

theorem progressNotices_mem {ls : List (List Char)} {e : Event}
    (h : e ∈ progressNotices ls) : e = Event.out msgInProgress := by
  unfold progressNotices at h
  rw [List.mem_map] at h
  obtain ⟨_, _, e1⟩ := h
  exact e1.symm

theorem inProgress_not_terminal : ¬ IsTerminalNotice (Event.out msgInProgress) := by decide

/-- Every list of lines either has a first stopping line or none. -/
theorem first_stop_or_none (ls : List (List Char)) :
    (∀ x ∈ ls, ¬ Stops x) ∨
    ∃ pre l post, ls = pre ++ l :: post ∧ Stops l ∧ ∀ x ∈ pre, ¬ Stops x := by
  induction ls with
  | nil => left; simp
  | cons a ls ih =>
    by_cases ha : Stops a
    · exact Or.inr ⟨[], a, ls, rfl, ha, by simp⟩
    · rcases ih with h | ⟨pre, l, post, e, hl, hpre⟩
      · left
        intro x hx
        rcases List.mem_cons.mp hx with e | hx
        · rw [e]; exact ha
        · exact h x hx
      · refine Or.inr ⟨a :: pre, l, post, by rw [e]; rfl, hl, ?_⟩
        intro x hx
        rcases List.mem_cons.mp hx with e | hx
        · rw [e]; exact ha
        · exact hpre x hx

/-- The classifier prints in-progress notices and then at most one terminal
notice, which comes last. -/
theorem classifyLines_shape (ls : List (List Char)) :
    (∃ k, classifyLines ls = List.replicate k (Event.out msgInProgress)) ∨
    (∃ k e, IsTerminalNotice e ∧
      classifyLines ls = List.replicate k (Event.out msgInProgress) ++ [e]) := by
  have hrep : ∀ xs : List (List Char), ∃ k,
      progressNotices xs = List.replicate k (Event.out msgInProgress) := by
    intro xs
    exact ⟨(xs.filter (fun l => decide (phraseUpdating <:+: l))).length,
      by simp [progressNotices, List.map_const']⟩
  rcases first_stop_or_none ls with h | ⟨pre, l, post, e, hl, hpre⟩
  · obtain ⟨k, hk⟩ := hrep ls
    exact Or.inl ⟨k, by rw [classifyLines_no_stop ls h, hk]⟩
  · obtain ⟨k, hk⟩ := hrep pre
    exact Or.inr ⟨k, terminalNotice l, terminalNotice_isTerminal l,
      by rw [e, classifyLines_first_stop pre l post hpre hl, hk]⟩

theorem countP_terminal_replicate (k : Nat) :
    (List.replicate k (Event.out msgInProgress)).countP (fun e => decide (IsTerminalNotice e))
      = 0 := by
  rw [List.countP_eq_zero]
  intro e he
  rw [List.eq_of_mem_replicate he]
  decide

theorem classifyLines_countP (ls : List (List Char)) :
    (classifyLines ls).countP (fun e => decide (IsTerminalNotice e)) ≤ 1 := by
  rcases classifyLines_shape ls with ⟨k, hk⟩ | ⟨k, e, he, hk⟩
  · rw [hk, countP_terminal_replicate]
    omega
  · rw [hk, List.countP_append, countP_terminal_replicate]
    simp [List.countP_cons, he]

/-- A terminal notice starts with the four characters of a newline
followed by `> y`. -/
theorem terminal_head {e : Event} (h : IsTerminalNotice e) :
    ∃ s, e = Event.out s ∧ s.data.take 4 = ['\n', '>', ' ', 'y'] := by
  rcases h with h | h
  · exact ⟨_, h, by decide⟩
  · exact ⟨_, h, by decide⟩

theorem msgReturned_not_terminal (code : Int) :
    ¬ IsTerminalNotice (Event.out (msgReturned code)) := by
  intro h
  obtain ⟨s, e, hs⟩ := terminal_head h
  rw [← Event.out.inj e] at hs
  simp [msgReturned] at hs

theorem msgExpected_not_terminal (path : String) :
    ¬ IsTerminalNotice (Event.out (msgExpected path)) := by
  intro h
  obtain ⟨s, e, hs⟩ := terminal_head h
  rw [← Event.out.inj e] at hs
  simp [msgExpected] at hs

/-! ## Reading a stream in two parts -/

/-- A successful read stores at most 511 bytes taken from the front of the
stream, and the string classified is the stored prefix cut at the first NUL
and stripped of its trailing line terminators. -/
theorem nextLine_buffer {s line rest : List Char} (h : nextLine s = some (line, rest)) :
    ∃ buf, s = buf ++ rest ∧ buf.length ≤ 511 ∧ line = stripCRLF (cstr buf) := by
  rcases nextLine_cases h with ⟨a, ha, hl, e, hline⟩ | ⟨a, ha, hl, e, hline⟩ |
      ⟨a, ha, hne, hl, e, hr, hline⟩
  · refine ⟨a ++ ['\n'], by simp [e], by simp; omega, ?_⟩
    rw [hline, trimLine_cstr_eq _ (by simp; omega)]
  · refine ⟨a, e, by omega, ?_⟩
    rw [hline, trimLine_cstr_eq _ (by omega)]
  · refine ⟨a, by simp [e, hr], by omega, ?_⟩
    rw [hline, trimLine_cstr_eq _ (by omega)]

/-- The reads of a stream do not change when what follows the bytes they
consumed is cut off or replaced, as long as something is left of it or
nothing was there. -/
theorem nextLine_truncate {s line rest : List Char} (h : nextLine s = some (line, rest))
    (c u : List Char) (hr : rest = c ++ u) :
    ∃ buf, s = buf ++ rest ∧ nextLine (buf ++ c) = some (line, c) := by
  rcases nextLine_cases h with ⟨a, ha, hl, e, hline⟩ | ⟨a, ha, hl, e, hline⟩ |
      ⟨a, ha, hne, hl, e, hr0, hline⟩
  · refine ⟨a ++ ['\n'], by simp [e], ?_⟩
    have := nextLine_newline a c ha hl
    rw [hline]
    simpa using this
  · refine ⟨a, e, ?_⟩
    rw [hline]
    exact nextLine_full a c ha hl
  · have hc : c = [] := by
      rw [hr0] at hr
      exact (List.append_eq_nil.mp hr.symm).1
    refine ⟨a, by simp [e, hr0], ?_⟩
    rw [hline, hc, List.append_nil]
    exact nextLine_eof a ha hne (by omega)

/-- A read of a stream that ends with a newline is not affected by what is
appended to the stream, and leaves a stream that is empty or ends with a
newline. -/
theorem nextLine_append {s line rest : List Char} (h : nextLine s = some (line, rest))
    (hterm : s.getLast? = some '\n') (x : List Char) :
    nextLine (s ++ x) = some (line, rest ++ x) ∧ (rest = [] ∨ rest.getLast? = some '\n') := by
  have hrest : ∀ buf, s = buf ++ rest → (rest = [] ∨ rest.getLast? = some '\n') := by
    intro buf e
    by_cases hne : rest = []
    · exact Or.inl hne
    · right
      rw [e, List.getLast?_append_of_ne_nil _ hne] at hterm
      exact hterm
  have hmem : '\n' ∈ s := by
    obtain ⟨ys, hys⟩ := List.getLast?_eq_some_iff.mp hterm
    rw [hys]
    simp
  rcases nextLine_cases h with ⟨a, ha, hl, e, hline⟩ | ⟨a, ha, hl, e, hline⟩ |
      ⟨a, ha, hne, hl, e, hr0, hline⟩
  · refine ⟨?_, hrest (a ++ ['\n']) (by simp [e])⟩
    have := nextLine_newline a (rest ++ x) ha hl
    rw [hline, e]
    simpa using this
  · refine ⟨?_, hrest a e⟩
    have := nextLine_full a (rest ++ x) ha hl
    rw [hline, e]
    simpa using this
  · rw [e] at hmem
    exact absurd hmem ha

theorem linesOf_append (a : List Char) :
    (a = [] ∨ a.getLast? = some '\n') → ∀ x, linesOf (a ++ x) = linesOf a ++ linesOf x := by
  induction a using stream_induction with
  | hnil => intro _ x; simp [linesOf_nil]
  | hstep s line rest hl ih =>
    intro hterm x
    have hs : s.getLast? = some '\n' := by
      rcases hterm with e | e
      · rw [e, nextLine_nil] at hl
        cases hl
      · exact e
    obtain ⟨h1, h2⟩ := nextLine_append hl hs x
    rw [linesOf_step h1, linesOf_step hl, ih h2 x]
    rfl

/-- A stream of carriage returns and newlines only yields empty strings. -/
theorem linesOf_blank :
    ∀ s : List Char, (∀ c ∈ s, c = '\r' ∨ c = '\n') → ∀ l ∈ linesOf s, l = [] := by
  intro s
  induction s using stream_induction with
  | hnil => intro _ l hl; simp [linesOf_nil] at hl
  | hstep s line rest hl ih =>
    intro hs l hmem
    obtain ⟨buf, e, _, hline⟩ := nextLine_buffer hl
    rw [linesOf_step hl] at hmem
    rcases List.mem_cons.mp hmem with e1 | hin
    · rw [e1, hline]
      unfold stripCRLF
      rw [List.rdropWhile_eq_nil_iff]
      intro c hc
      have hcb : c ∈ buf := (cstr_pre buf).subset hc
      have : c = '\r' ∨ c = '\n' := hs c (by rw [e]; exact List.mem_append_left _ hcb)
      rcases this with h1 | h1 <;> simp [h1]
    · refine ih ?_ l hin
      intro c hc
      exact hs c (by rw [e]; exact List.mem_append_right _ hc)

theorem classifyLines_append_congr (xs : List (List Char)) {ys zs : List (List Char)}
    (h : classifyLines ys = classifyLines zs) :
    classifyLines (xs ++ ys) = classifyLines (xs ++ zs) := by
  induction xs with
  | nil => simpa using h
  | cons x xs ih => simp [classifyLines, ih]

/-- Empty strings among the lines do not change what the classifier prints. -/
theorem classifyLines_skip_empty (xs es ys : List (List Char)) (hes : ∀ e ∈ es, e = []) :
    classifyLines (xs ++ (es ++ ys)) = classifyLines (xs ++ ys) := by
  apply classifyLines_append_congr
  have hq : ∀ e ∈ es, ¬ Stops e := by
    intro e he hs
    rw [hes e he] at hs
    rcases hs.2 with h | h
    · exact not_infix_nil (by decide) h
    · exact not_infix_nil (by decide) h
  rw [classifyLines_quiet es ys hq]
  have : progressNotices es = [] := by
    unfold progressNotices
    rw [List.map_eq_nil_iff, List.filter_eq_nil_iff]
    intro e he
    rw [hes e he]
    simpa using (not_infix_nil (by decide) : ¬ phraseUpdating <:+: ([] : List Char))
  rw [this, List.nil_append]

/-- Two children with the same `PCLOSE` value whose outputs make the
classifier print the same give the same run. -/
theorem main_withChild_congr (h : Host) (c d : Child) (hst : c.status = d.status)
    (hcl : classifyLines (linesOf c.output) = classifyLines (linesOf d.output)) :
    main (h.withChild c) = main (h.withChild d) := by
  cases hs : h.selfPath with
  | none =>
    rw [main_self_fail (h.withChild c) hs, main_self_fail (h.withChild d) hs]
    rfl
  | some p =>
    cases hm : h.fileExists (h.pathAppend (h.parent_path p) "yt-dlp.exe") with
    | false =>
      rw [main_missing (h.withChild c) p hs hm, main_missing (h.withChild d) p hs hm]
      rfl
    | true =>
      rw [main_child (h.withChild c) p c hs hm rfl, main_child (h.withChild d) p d hs hm rfl,
        hcl, hst]
      rfl

/-! ## C1: the companion executable is missing -/

/-- C1: when the platform resolves the launcher's own path and the file
`<install-dir>/yt-dlp.exe` does not exist, `main` returns; it prints the
"not found" message and the line with the expected path, waits for a key,
exits with code 1, and its trace has no `POPEN`, no change of working
directory and no "Checking for yt-dlp updates..." line. -/
theorem missing_companion_exits_one (h : Host) (p : String)
    (hself : h.selfPath = some p)
    (hmissing : h.fileExists (h.pathAppend (h.parent_path p) "yt-dlp.exe") = false) :
    ∃ run, main h = some run ∧
      run.trace = [Event.out "> yt-dlp.exe not found.\n",
        Event.out ("> Expected path: " ++ h.pathAppend (h.parent_path p) "yt-dlp.exe" ++ "\n"),
        Event.out "\nProcess terminated. Press enter to exit...",
        Event.cinGet] ∧
      run.exitCode = 1 ∧
      (∀ e ∈ run.trace, (∀ command, e ≠ Event.popen command) ∧ (∀ dir, e ≠ Event.chdir dir) ∧
        e ≠ Event.out "Checking for yt-dlp updates...\n") := by
  refine ⟨_, main_missing h p hself hmissing, rfl, rfl, ?_⟩
  intro e he
  simp only [List.mem_cons, List.mem_singleton, List.not_mem_nil, or_false] at he
  rcases he with rfl | rfl | rfl | rfl
  · refine ⟨fun _ => by simp, fun _ => by simp, by decide⟩
  · refine ⟨fun _ => by simp, fun _ => by simp, ?_⟩
    intro e
    have e1 := congrArg (fun s => s.data.take 3) (Event.out.inj e)
    simp [msgExpected] at e1
  · refine ⟨fun _ => by simp, fun _ => by simp, by decide⟩
  · refine ⟨fun _ => by simp, fun _ => by simp, by simp⟩

/-- C1, on a host whose install directory `/opt/vd` has no companion. -/
theorem missing_companion_exits_one_witness :
    ∃ run, main bareHost = some run ∧
      run.trace = [Event.out "> yt-dlp.exe not found.\n",
        Event.out "> Expected path: /opt/vd/yt-dlp.exe\n",
        Event.out "\nProcess terminated. Press enter to exit...",
        Event.cinGet] ∧
      run.exitCode = 1 ∧
      (∀ e ∈ run.trace, (∀ command, e ≠ Event.popen command) ∧ (∀ dir, e ≠ Event.chdir dir) ∧
        e ≠ Event.out "Checking for yt-dlp updates...\n") :=
  missing_companion_exits_one bareHost "/opt/vd/updater" rfl rfl

/-! ## C2: the "already up to date" notice -/

/-- C2 as stated fails: the child output below has a line with "yt-dlp is
up to date", but the loop has stopped at the line before it, so the
up-to-date notice is not printed. -/
theorem up_to_date_line_after_stop_not_reported :
    ∃ run,
      main (demoHost ⟨"Updated yt-dlp to 2024.01.01\nyt-dlp is up to date\n".toList, 0⟩)
        = some run ∧
      (∃ l ∈ splitLines "Updated yt-dlp to 2024.01.01\nyt-dlp is up to date\n".toList,
        phraseUpToDate <:+: l) ∧
      Event.out msgUpToDate ∉ run.trace :=
  ⟨_, rfl, by decide, by decide⟩

/-- C2, amended: when the companion is found and spawned and, among the
strings the loop reads from the child output (one per `fgets`: at most 511
bytes, cut at the first NUL, trailing line terminators removed), the first
one that has a terminal phrase without "Updating to" has "yt-dlp is up to
date", the launcher prints the up-to-date notice and exits with code 0. -/
theorem first_stop_up_to_date_reported (h : Host) (p : String) (child : Child)
    (pre : List (List Char)) (l : List Char) (post : List (List Char))
    (hself : h.selfPath = some p)
    (hexists : h.fileExists (h.pathAppend (h.parent_path p) "yt-dlp.exe") = true)
    (hspawn : h.spawn ("\"" ++ h.pathAppend (h.parent_path p) "yt-dlp.exe" ++ "\" -U")
      = some child)
    (hread : readLines (child.output.length + 1) child.output = some (pre ++ l :: post))
    (hpre : ∀ x ∈ pre, ¬ Stops x)
    (hno : ¬ phraseUpdating <:+: l)
    (hl : phraseUpToDate <:+: l) :
    ∃ run, main h = some run ∧
      Event.out "\n> yt-dlp is already up to date. You can close the window.\n" ∈ run.trace ∧
      run.exitCode = 0 := by
  have hlines : linesOf child.output = pre ++ l :: post := by
    have := readLines_eq child.output (child.output.length + 1) (by omega)
    rw [hread] at this
    exact (Option.some.inj this).symm
  have hrun := main_child h p child hself hexists hspawn
  rw [hlines, classifyLines_first_stop pre l post hpre ⟨hno, Or.inl hl⟩] at hrun
  refine ⟨_, hrun, ?_, rfl⟩
  have : terminalNotice l
      = Event.out "\n> yt-dlp is already up to date. You can close the window.\n" := by
    simp [terminalNotice, hl, msgUpToDate]
  simp [this]

/-- C2, amended, on a child that prints its version and then that it is up
to date. -/
theorem first_stop_up_to_date_reported_witness :
    ∃ run,
      main (demoHost ⟨"Current version: 1\r\nyt-dlp is up to date (1)\r\n".toList, 0⟩)
        = some run ∧
      Event.out "\n> yt-dlp is already up to date. You can close the window.\n" ∈ run.trace ∧
      run.exitCode = 0 :=
  first_stop_up_to_date_reported
    (demoHost ⟨"Current version: 1\r\nyt-dlp is up to date (1)\r\n".toList, 0⟩)
    "/opt/vd/updater"
    ⟨"Current version: 1\r\nyt-dlp is up to date (1)\r\n".toList, 0⟩
    ["Current version: 1".toList] "yt-dlp is up to date (1)".toList []
    rfl rfl rfl (by decide) (by decide) (by decide) (by decide)

/-! ## C3: an update that is announced and then reported -/

/-- C3 as stated fails: in the child output below a line with "Updating to
2024.01.01" is followed later by a line with "Updated yt-dlp to 2024.01.01",
but the loop stops at the line between them and the success notice is not
printed. -/
theorem success_line_after_stop_not_reported :
    ∃ run,
      main (demoHost
        ⟨"Updating to 2024.01.01\nyt-dlp is up to date\nUpdated yt-dlp to 2024.01.01\n".toList,
          0⟩) = some run ∧
      splitLines
          "Updating to 2024.01.01\nyt-dlp is up to date\nUpdated yt-dlp to 2024.01.01\n".toList
        = ["Updating to 2024.01.01".toList, "yt-dlp is up to date".toList,
            "Updated yt-dlp to 2024.01.01".toList] ∧
      Event.out msgSuccess ∉ run.trace :=
  ⟨_, rfl, by decide, by decide⟩

theorem present_of_longer {pat long l : List Char} (hp : pat <:+: long) (h : long <:+: l) :
    pat <:+: l :=
  hp.trans h

/-- C3, amended: when, among the strings the loop reads from the child
output (one per `fgets`: at most 511 bytes, cut at the first NUL, trailing
line terminators removed), one with "Updating to 2024.01.01" is followed
later by one with "Updated yt-dlp to 2024.01.01" that has neither "Updating
to" nor "yt-dlp is up to date", and no string read before that one has a
terminal phrase without "Updating to", the launcher prints the in-progress
notice and, later, the success notice. -/
theorem update_announced_then_reported (h : Host) (p : String) (child : Child)
    (p1 : List (List Char)) (l1 : List Char) (p2 : List (List Char)) (l2 : List Char)
    (post : List (List Char))
    (hself : h.selfPath = some p)
    (hexists : h.fileExists (h.pathAppend (h.parent_path p) "yt-dlp.exe") = true)
    (hspawn : h.spawn ("\"" ++ h.pathAppend (h.parent_path p) "yt-dlp.exe" ++ "\" -U")
      = some child)
    (hread : readLines (child.output.length + 1) child.output
      = some (p1 ++ l1 :: (p2 ++ l2 :: post)))
    (h1 : "Updating to 2024.01.01".toList <:+: l1)
    (h2 : "Updated yt-dlp to 2024.01.01".toList <:+: l2)
    (h2a : ¬ phraseUpdating <:+: l2)
    (h2b : ¬ phraseUpToDate <:+: l2)
    (hp1 : ∀ x ∈ p1, ¬ Stops x)
    (hp2 : ∀ x ∈ p2, ¬ Stops x) :
    ∃ run, main h = some run ∧
      (∃ t1 t2 t3, run.trace =
        t1 ++ Event.out msgInProgress :: (t2 ++ Event.out msgSuccess :: t3)) ∧
      run.exitCode = 0 := by
  have hlines : linesOf child.output = p1 ++ l1 :: (p2 ++ l2 :: post) := by
    have := readLines_eq child.output (child.output.length + 1) (by omega)
    rw [hread] at this
    exact (Option.some.inj this).symm
  have hu1 : phraseUpdating <:+: l1 := present_of_longer (by decide) h1
  have hu2 : phraseUpdated <:+: l2 := present_of_longer (by decide) h2
  have hl1 : ¬ Stops l1 := fun hs => hs.1 hu1
  have hl2 : Stops l2 := ⟨h2a, Or.inr hu2⟩
  have hc : classifyLines (p1 ++ l1 :: (p2 ++ l2 :: post))
      = progressNotices p1 ++ Event.out msgInProgress ::
          (progressNotices p2 ++ [Event.out msgSuccess]) := by
    rw [classifyLines_quiet p1 _ hp1, classifyLines_cons_quiet l1 _ hl1,
      classifyLines_first_stop p2 l2 post hp2 hl2]
    simp [progressNotices, hu1, terminalNotice, h2b]
  have hrun := main_child h p child hself hexists hspawn
  rw [hlines, hc] at hrun
  refine ⟨_, hrun, ?_, rfl⟩
  refine ⟨[Event.out msgChecking, Event.chdir (h.parent_path p),
      Event.popen ("\"" ++ h.pathAppend (h.parent_path p) "yt-dlp.exe" ++ "\" -U")]
        ++ progressNotices p1, progressNotices p2,
      [Event.pclose] ++ (if child.status ≠ 0 then [Event.out (msgReturned child.status)] else [])
        ++ [Event.out msgPressEnter, Event.cinGet], ?_⟩
  simp

/-- C3, amended, on a child that announces and then reports the update. -/
theorem update_announced_then_reported_witness :
    ∃ run,
      main (demoHost
        ⟨"Updating to 2024.01.01\r\n\r\nUpdated yt-dlp to 2024.01.01\r\n".toList, 0⟩)
        = some run ∧
      (∃ t1 t2 t3, run.trace =
        t1 ++ Event.out msgInProgress :: (t2 ++ Event.out msgSuccess :: t3)) ∧
      run.exitCode = 0 :=
  update_announced_then_reported
    (demoHost ⟨"Updating to 2024.01.01\r\n\r\nUpdated yt-dlp to 2024.01.01\r\n".toList, 0⟩)
    "/opt/vd/updater"
    ⟨"Updating to 2024.01.01\r\n\r\nUpdated yt-dlp to 2024.01.01\r\n".toList, 0⟩
    [] "Updating to 2024.01.01".toList [[]] "Updated yt-dlp to 2024.01.01".toList []
    rfl rfl rfl (by decide) (by decide) (by decide) (by decide) (by decide) (by decide)
    (by decide)

/-! ## C4: unrecognised output and a non-zero code -/

/-- C5: `main` returns on every host, and its exit code is 1 exactly when
the self-path query fails, the companion executable is missing or the spawn
fails; in every other run, whatever the child prints and whatever
`PCLOSE` returns, the exit code is 0. -/
theorem exit_code_one_iff_early_failure (h : Host) :
    ∃ run, main h = some run ∧
      (run.exitCode = 1 ↔
        (h.selfPath = none ∨ ∃ p, h.selfPath = some p ∧
          (h.fileExists (h.pathAppend (h.parent_path p) "yt-dlp.exe") = false ∨
            h.spawn ("\"" ++ h.pathAppend (h.parent_path p) "yt-dlp.exe" ++ "\" -U") = none))) ∧
      (run.exitCode = 0 ↔
        ∃ p child, h.selfPath = some p ∧
          h.fileExists (h.pathAppend (h.parent_path p) "yt-dlp.exe") = true ∧
          h.spawn ("\"" ++ h.pathAppend (h.parent_path p) "yt-dlp.exe" ++ "\" -U")
            = some child) := by
  cases hs : h.selfPath with
  | none =>
    refine ⟨_, main_self_fail h hs, ?_, ?_⟩
    · simp
    · simp
  | some p =>
    cases hm : h.fileExists (h.pathAppend (h.parent_path p) "yt-dlp.exe") with
    | false =>
      refine ⟨_, main_missing h p hs hm, ?_, ?_⟩
      · simp [hm]
      · simp [hm]
    | true =>
      cases hp : h.spawn ("\"" ++ h.pathAppend (h.parent_path p) "yt-dlp.exe" ++ "\" -U") with
      | none =>
        refine ⟨_, main_spawn_fail h p hs hm hp, ?_, ?_⟩
        · simp [hm, hp]
        · simp [hm, hp]
      | some c =>
        refine ⟨_, main_child h p c hs hm hp, ?_, ?_⟩
        · simp [hm, hp]
        · simp [hm, hp]

/-! ## C8: what the failure paths print and whether they wait -/

/-- C8 as stated fails: when the self-path query fails, the launcher prints
its message and exits with code 1 without any `std::cin.get()`. -/
theorem self_path_failure_does_not_wait :
    ∃ run, main lostHost = some run ∧
      run.trace = [Event.err "> Error getting executable path.\n"] ∧
      run.exitCode = 1 ∧ Event.cinGet ∉ run.trace :=
  ⟨_, rfl, rfl, rfl, by decide⟩

/-- C8, amended: every failure path prints a message. The run with a
missing companion and the run whose child returns a non-zero code end with
a `std::cin.get()`; the run in which the self-path query fails and the run
in which the spawn fails perform no `std::cin.get()` at all. -/
theorem failure_paths_print_and_wait (h : Host) :
    ∃ run, main h = some run ∧
      (h.selfPath = none →
        (Event.err "> Error getting module file name.\n" ∈ run.trace ∨
          Event.err "> Error getting executable path.\n" ∈ run.trace) ∧
        Event.cinGet ∉ run.trace) ∧
      (∀ p, h.selfPath = some p →
        h.fileExists (h.pathAppend (h.parent_path p) "yt-dlp.exe") = false →
        Event.out "> yt-dlp.exe not found.\n" ∈ run.trace ∧
        run.trace.getLast? = some Event.cinGet) ∧
      (∀ p, h.selfPath = some p →
        h.fileExists (h.pathAppend (h.parent_path p) "yt-dlp.exe") = true →
        h.spawn ("\"" ++ h.pathAppend (h.parent_path p) "yt-dlp.exe" ++ "\" -U") = none →
        Event.err "Error: Failed to start yt-dlp update process.\n" ∈ run.trace ∧
        Event.cinGet ∉ run.trace) ∧
      (∀ p child, h.selfPath = some p →
        h.fileExists (h.pathAppend (h.parent_path p) "yt-dlp.exe") = true →
        h.spawn ("\"" ++ h.pathAppend (h.parent_path p) "yt-dlp.exe" ++ "\" -U")
          = some child →
        child.status ≠ 0 →
        Event.out ("\n> Error: Update process returned code " ++ toString child.status ++ "\n")
          ∈ run.trace ∧
        run.trace.getLast? = some Event.cinGet) := by
  cases hs : h.selfPath with
  | none =>
    refine ⟨_, main_self_fail h hs, ?_, ?_, ?_, ?_⟩
    · intro _
      cases h.win32 <;> simp
    · intro p hp; cases hp
    · intro p hp; cases hp
    · intro p c hp; cases hp
  | some p =>
    cases hm : h.fileExists (h.pathAppend (h.parent_path p) "yt-dlp.exe") with
    | false =>
      refine ⟨_, main_missing h p hs hm, ?_, ?_, ?_, ?_⟩
      · intro hn; cases hn
      · intro q hq _
        simp [msgNotFound]
      · intro q hq hq2
        cases hq
        rw [hm] at hq2
        cases hq2
      · intro q c hq hq2
        cases hq
        rw [hm] at hq2
        cases hq2
    | true =>
      cases hp : h.spawn ("\"" ++ h.pathAppend (h.parent_path p) "yt-dlp.exe" ++ "\" -U") with
      | none =>
        refine ⟨_, main_spawn_fail h p hs hm hp, ?_, ?_, ?_, ?_⟩
        · intro hn; cases hn
        · intro q hq hq2
          cases hq
          rw [hm] at hq2
          cases hq2
        · intro q hq _ _
          simp [msgSpawnFailed]
        · intro q c hq _ hq3
          cases hq
          rw [hp] at hq3
          cases hq3
      | some c =>
        refine ⟨_, main_child h p c hs hm hp, ?_, ?_, ?_, ?_⟩
        · intro hn; cases hn
        · intro q hq hq2
          cases hq
          rw [hm] at hq2
          cases hq2
        · intro q hq _ hq3
          cases hq
          rw [hp] at hq3
          cases hq3
        · intro q c' hq _ hq3 hst
          cases hq
          rw [hp] at hq3
          cases hq3
          refine ⟨?_, ?_⟩
          · simp [hst, msgReturned]
          · show (_ ++ [Event.out msgPressEnter, Event.cinGet]).getLast? = _
            rw [List.getLast?_append]
            rfl

/-! ## C6: blank lines -/

/-- C6: a read whose trimmed string is empty prints nothing and the loop
goes on with the rest of the stream; and on every host, for every child
output `a ++ b` cut at a line boundary (`a` is empty or ends with a newline)
and every blank line (any number of carriage returns and a newline), the run
with the blank line inserted between `a` and `b` is the run without it:
same trace, same exit code; the same holds for carriage returns alone added
at the very end of an output that is empty or ends with a newline. -/
theorem blank_lines_are_skipped :
    (∀ (s rest : List Char) (fuel : Nat), nextLine s = some ([], rest) →
      readLoop (fuel + 1) s = readLoop fuel rest) ∧
    (∀ (h : Host) (a b : List Char) (k : Nat) (status : Int),
      (a = [] ∨ a.getLast? = some '\n') →
      ∃ run, main (h.withChild ⟨a ++ b, status⟩) = some run ∧
        main (h.withChild ⟨a ++ (List.replicate k '\r' ++ '\n' :: b), status⟩) = some run) ∧
    (∀ (h : Host) (a : List Char) (k : Nat) (status : Int),
      (a = [] ∨ a.getLast? = some '\n') →
      ∃ run, main (h.withChild ⟨a, status⟩) = some run ∧
        main (h.withChild ⟨a ++ List.replicate k '\r', status⟩) = some run) := by
  refine ⟨?_, ?_, ?_⟩
  · intro s rest fuel hl
    rw [readLoop_succ fuel hl]
    simp
  · intro h a b k status ha
    obtain ⟨run, hrun⟩ := main_total (h.withChild ⟨a ++ b, status⟩)
    refine ⟨run, hrun, ?_⟩
    rw [← hrun]
    refine main_withChild_congr h ⟨a ++ (List.replicate k '\r' ++ '\n' :: b), status⟩
      ⟨a ++ b, status⟩ rfl ?_
    show classifyLines (linesOf (a ++ (List.replicate k '\r' ++ '\n' :: b)))
      = classifyLines (linesOf (a ++ b))
    have hblank : (List.replicate k '\r' ++ '\n' :: b)
        = (List.replicate k '\r' ++ ['\n']) ++ b := by simp
    have hterm : (List.replicate k '\r' ++ ['\n']) = [] ∨
        (List.replicate k '\r' ++ ['\n']).getLast? = some '\n' :=
      Or.inr (List.getLast?_concat _)
    rw [hblank, linesOf_append a ha, linesOf_append _ hterm, linesOf_append a ha]
    apply classifyLines_skip_empty
    apply linesOf_blank
    intro c hc
    rcases List.mem_append.mp hc with h1 | h1
    · exact Or.inl (List.eq_of_mem_replicate h1)
    · exact Or.inr (by simpa using h1)
  · intro h a k status ha
    obtain ⟨run, hrun⟩ := main_total (h.withChild ⟨a, status⟩)
    refine ⟨run, hrun, ?_⟩
    rw [← hrun]
    refine main_withChild_congr h ⟨a ++ List.replicate k '\r', status⟩ ⟨a, status⟩ rfl ?_
    show classifyLines (linesOf (a ++ List.replicate k '\r')) = classifyLines (linesOf a)
    rw [linesOf_append a ha]
    have h1 := classifyLines_skip_empty (linesOf a) (linesOf (List.replicate k '\r')) []
      (linesOf_blank _ (fun c hc => Or.inl (List.eq_of_mem_replicate hc)))
    simpa using h1

/-- C6, on an output with a `"\r\n"` line inserted after its first line. -/
theorem blank_lines_are_skipped_witness :
    ∃ run,
      main ((demoHost ⟨[], 0⟩).withChild
        ⟨"Updating to 1\n".toList ++ "Updated yt-dlp to 1\n".toList, 0⟩) = some run ∧
      main ((demoHost ⟨[], 0⟩).withChild
        ⟨"Updating to 1\n".toList ++ (List.replicate 1 '\r' ++ '\n' ::
          "Updated yt-dlp to 1\n".toList), 0⟩) = some run :=
  blank_lines_are_skipped.2.1 (demoHost ⟨[], 0⟩) "Updating to 1\n".toList
    "Updated yt-dlp to 1\n".toList 1 0 (Or.inr (by decide))

/-! ## C7: nothing is read after a terminal notice -/

theorem readLoop_stop {s line rest : List Char} (f : Nat)
    (h : nextLine s = some (line, rest)) (hs : Stops line) :
    readLoop (f + 1) s = some ([terminalNotice line], rest) := by
  obtain ⟨h1, h2⟩ := hs
  have he : line ≠ [] := by
    rintro rfl
    rcases h2 with h2 | h2
    · exact not_infix_nil (by decide) h2
    · exact not_infix_nil (by decide) h2
  rw [readLoop_succ f h]
  by_cases h3 : phraseUpToDate <:+: line
  · simp [terminalNotice, he, h1, h3]
  · have h4 : phraseUpdated <:+: line := h2.resolve_left h3
    simp [terminalNotice, he, h1, h3, h4]

theorem readLoop_quiet {s line rest : List Char} (f : Nat)
    (h : nextLine s = some (line, rest)) (hs : ¬ Stops line) :
    readLoop (f + 1) s
      = (readLoop f rest).map (fun r => (progressNotices [line] ++ r.1, r.2)) := by
  unfold Stops at hs
  rw [readLoop_succ f h]
  by_cases he : line = []
  · subst he
    have : ¬ phraseUpdating <:+: ([] : List Char) := not_infix_nil (by decide)
    simp [progressNotices, this]
  · by_cases h1 : phraseUpdating <:+: line
    · simp [progressNotices, he, h1]
    · have h2 : ¬ phraseUpToDate <:+: line := fun x => hs ⟨h1, Or.inl x⟩
      have h3 : ¬ phraseUpdated <:+: line := fun x => hs ⟨h1, Or.inr x⟩
      simp [progressNotices, he, h1, h2, h3]

/-- When the strings read from a stream have a first stopping one, the
stream splits right after the bytes of that read: whatever beginning of the
second part is kept behind the first, the loop prints the same and returns
what was kept unread. -/
theorem consume_first_stop (pre : List (List Char)) (l : List Char)
    (post : List (List Char)) (hl : Stops l) :
    ∀ s : List Char, linesOf s = pre ++ l :: post → (∀ x ∈ pre, ¬ Stops x) →
      ∃ c u, s = c ++ u ∧ linesOf c = pre ++ [l] ∧ linesOf u = post ∧
        ∀ keep, keep <+: u → ∀ f, (c ++ keep).length < f →
          readLoop f (c ++ keep) = some (classifyLines (pre ++ [l]), keep) := by
  induction pre with
  | nil =>
    intro s hs _
    cases hn : nextLine s with
    | none =>
      rw [nextLine_eq_none hn, linesOf_nil] at hs
      cases hs
    | some q =>
      obtain ⟨line, rest⟩ := q
      rw [linesOf_step hn] at hs
      simp only [List.nil_append, List.cons.injEq] at hs
      obtain ⟨e1, e2⟩ := hs
      subst e1
      obtain ⟨buf, hb, hnb⟩ := nextLine_truncate hn [] rest rfl
      rw [List.append_nil] at hnb
      refine ⟨buf, rest, hb, ?_, e2, ?_⟩
      · rw [linesOf_step hnb, linesOf_nil]
        rfl
      · intro keep hkeep f hf
        obtain ⟨w, hw⟩ := hkeep
        obtain ⟨buf2, hb2, hnk⟩ := nextLine_truncate hn keep w hw.symm
        have hbuf : buf2 = buf := List.append_cancel_right (hb2.symm.trans hb)
        rw [hbuf] at hnk
        obtain ⟨f, rfl⟩ : ∃ k, f = k + 1 := ⟨f - 1, by omega⟩
        rw [readLoop_stop f hnk hl]
        simp [classifyLines_cons_stop line [] hl]
  | cons x pre ih =>
    intro s hs hpre
    have hx : ¬ Stops x := hpre x (by simp)
    have hpre' : ∀ y ∈ pre, ¬ Stops y := fun y hy => hpre y (by simp [hy])
    cases hn : nextLine s with
    | none =>
      rw [nextLine_eq_none hn, linesOf_nil] at hs
      cases hs
    | some q =>
      obtain ⟨line, rest⟩ := q
      rw [linesOf_step hn] at hs
      simp only [List.cons_append, List.cons.injEq] at hs
      obtain ⟨e1, e2⟩ := hs
      subst e1
      obtain ⟨c, u, hcu, hc, hu, hloop⟩ := ih rest e2 hpre'
      obtain ⟨buf, hb, hnb⟩ := nextLine_truncate hn c u hcu
      refine ⟨buf ++ c, u, by rw [hb, hcu, List.append_assoc], ?_, hu, ?_⟩
      · rw [linesOf_step hnb, hc]
        rfl
      · intro keep hkeep f hf
        obtain ⟨w, hw⟩ := hkeep
        have hrest : rest = (c ++ keep) ++ w := by rw [hcu, ← hw, List.append_assoc]
        obtain ⟨buf2, hb2, hnk⟩ := nextLine_truncate hn (c ++ keep) w hrest
        have hbuf : buf2 = buf := List.append_cancel_right (hb2.symm.trans hb)
        rw [hbuf] at hnk
        have hlt := (nextLine_some hnk).2.1
        obtain ⟨f, rfl⟩ : ∃ k, f = k + 1 := ⟨f - 1, by omega⟩
        rw [List.append_assoc, readLoop_quiet f hnk hx,
          hloop keep ⟨w, hw⟩ f (by simp only [List.length_append] at hf hlt ⊢; omega),
          List.cons_append, classifyLines_cons_quiet line _ hx]
        rfl

theorem notice_head {e : Event} (h : IsNotice e) :
    ∃ s, e = Event.out s ∧ s.data.take 4 = ['\n', '>', ' ', 'y'] := by
  rcases h with h | h
  · exact ⟨_, h, by decide⟩
  · exact terminal_head h

theorem msgReturned_not_notice (code : Int) : ¬ IsNotice (Event.out (msgReturned code)) := by
  intro h
  obtain ⟨s, e, hs⟩ := notice_head h
  rw [← Event.out.inj e] at hs
  simp [msgReturned] at hs

/-- C7: when, among the strings the loop reads from the child output, `l` is
the first that triggers a terminal notice, the output splits into the bytes
read up to and including `l` and an unread rest. The loop returns that rest
untouched; wherever the output is cut after the read of `l` (right after it,
or keeping any beginning of the unread rest), the loop prints the same and
the run is the same, trace and exit code; and in the trace the terminal
notice is preceded by no other terminal notice and followed by no status
notice at all. -/
theorem stops_reading_after_first_terminal (h : Host) (p : String) (output : List Char)
    (status : Int) (pre : List (List Char)) (l : List Char) (post : List (List Char))
    (hself : h.selfPath = some p)
    (hexists : h.fileExists (h.pathAppend (h.parent_path p) "yt-dlp.exe") = true)
    (hread : readLines (output.length + 1) output = some (pre ++ l :: post))
    (hl : Stops l) (hpre : ∀ x ∈ pre, ¬ Stops x) :
    ∃ consumed unread printed run,
      output = consumed ++ unread ∧
      readLines (consumed.length + 1) consumed = some (pre ++ [l]) ∧
      readLines (unread.length + 1) unread = some post ∧
      readLoop (output.length + 1) output = some (printed, unread) ∧
      main (h.withChild ⟨output, status⟩) = some run ∧
      (∀ keep, keep <+: unread →
        readLoop ((consumed ++ keep).length + 1) (consumed ++ keep) = some (printed, keep) ∧
        main (h.withChild ⟨consumed ++ keep, status⟩) = some run) ∧
      (∃ t1 e t2, run.trace = t1 ++ e :: t2 ∧ IsTerminalNotice e ∧
        (∀ x ∈ t1, ¬ IsTerminalNotice x) ∧ (∀ x ∈ t2, ¬ IsNotice x)) := by
  have hlines : linesOf output = pre ++ l :: post := by
    have := readLines_eq output (output.length + 1) (by omega)
    rw [hread] at this
    exact (Option.some.inj this).symm
  obtain ⟨c, u, hcu, hc, hu, hloop⟩ := consume_first_stop pre l post hl output hlines hpre
  have hcl : classifyLines (pre ++ [l]) = progressNotices pre ++ [terminalNotice l] :=
    classifyLines_first_stop pre l [] hpre hl
  have hkeep : ∀ keep, keep <+: u →
      classifyLines (linesOf (c ++ keep)) = progressNotices pre ++ [terminalNotice l] := by
    intro keep hk
    have h1 := hloop keep hk ((c ++ keep).length + 1) (by omega)
    obtain ⟨r, h2, _⟩ := readLoop_classify (c ++ keep) ((c ++ keep).length + 1) (by omega)
    rw [h1] at h2
    simp only [Option.some.injEq, Prod.mk.injEq] at h2
    rw [← h2.1, hcl]
  have hrun : ∀ keep, keep <+: u →
      main (h.withChild ⟨c ++ keep, status⟩) =
        some ⟨[Event.out msgChecking, Event.chdir (h.parent_path p),
            Event.popen ("\"" ++ h.pathAppend (h.parent_path p) "yt-dlp.exe" ++ "\" -U")]
          ++ (progressNotices pre ++ [terminalNotice l]) ++ [Event.pclose]
          ++ (if status ≠ 0 then [Event.out (msgReturned status)] else [])
          ++ [Event.out msgPressEnter, Event.cinGet], 0⟩ := by
    intro keep hk
    have := main_child (h.withChild ⟨c ++ keep, status⟩) p ⟨c ++ keep, status⟩ hself hexists rfl
    rw [this]
    simp only [hkeep keep hk]
    rfl
  obtain ⟨run, hrun, htrace⟩ : ∃ run : Run,
      (∀ keep, keep <+: u → main (h.withChild ⟨c ++ keep, status⟩) = some run) ∧
      run.trace = [Event.out msgChecking, Event.chdir (h.parent_path p),
            Event.popen ("\"" ++ h.pathAppend (h.parent_path p) "yt-dlp.exe" ++ "\" -U")]
          ++ (progressNotices pre ++ [terminalNotice l]) ++ [Event.pclose]
          ++ (if status ≠ 0 then [Event.out (msgReturned status)] else [])
          ++ [Event.out msgPressEnter, Event.cinGet] := ⟨_, hrun, rfl⟩
  refine ⟨c, u, classifyLines (pre ++ [l]), run, hcu, ?_, ?_, ?_, ?_, ?_, ?_⟩
  · rw [readLines_eq c _ (by omega), hc]
  · rw [readLines_eq u _ (by omega), hu]
  · have := hloop u (List.prefix_refl u) (output.length + 1) (by rw [← hcu]; omega)
    rw [← hcu] at this
    exact this
  · have := hrun u (List.prefix_refl u)
    rw [← hcu] at this
    exact this
  · intro keep hk
    exact ⟨hloop keep hk _ (by omega), hrun keep hk⟩
  · refine ⟨[Event.out msgChecking, Event.chdir (h.parent_path p),
        Event.popen ("\"" ++ h.pathAppend (h.parent_path p) "yt-dlp.exe" ++ "\" -U")]
          ++ progressNotices pre, terminalNotice l,
        [Event.pclose] ++ (if status ≠ 0 then [Event.out (msgReturned status)] else [])
          ++ [Event.out msgPressEnter, Event.cinGet], ?_, terminalNotice_isTerminal l, ?_, ?_⟩
    · rw [htrace]
      simp
    · intro x hx
      rcases List.mem_append.mp hx with h1 | h1
      · simp only [List.mem_cons, List.mem_singleton, List.not_mem_nil, or_false] at h1
        rcases h1 with rfl | rfl | rfl
        · decide
        · simp [IsTerminalNotice]
        · simp [IsTerminalNotice]
      · rw [progressNotices_mem h1]
        exact inProgress_not_terminal
    · intro x hx
      rcases List.mem_append.mp hx with h1 | h1
      · rcases List.mem_append.mp h1 with h2 | h2
        · rw [List.mem_singleton.mp h2]
          decide
        · by_cases hst : status = 0
          · simp [hst] at h2
          · simp only [ne_eq, hst, not_false_eq_true, if_true, List.mem_singleton] at h2
            rw [h2]
            exact msgReturned_not_notice status
      · simp only [List.mem_cons, List.mem_singleton, List.not_mem_nil, or_false] at h1
        rcases h1 with rfl | rfl
        · decide
        · decide

/-- C7, on an output whose second line is the first to stop the loop. -/
theorem stops_reading_after_first_terminal_witness :
    ∃ consumed unread printed run,
      "note\nyt-dlp is up to date\nUpdating to 9\n".toList = consumed ++ unread ∧
      readLines (consumed.length + 1) consumed
        = some (["note".toList] ++ ["yt-dlp is up to date".toList]) ∧
      readLines (unread.length + 1) unread = some ["Updating to 9".toList] ∧
      readLoop ("note\nyt-dlp is up to date\nUpdating to 9\n".toList.length + 1)
        "note\nyt-dlp is up to date\nUpdating to 9\n".toList = some (printed, unread) ∧
      main ((demoHost ⟨[], 0⟩).withChild
        ⟨"note\nyt-dlp is up to date\nUpdating to 9\n".toList, 0⟩) = some run ∧
      (∀ keep, keep <+: unread →
        readLoop ((consumed ++ keep).length + 1) (consumed ++ keep) = some (printed, keep) ∧
        main ((demoHost ⟨[], 0⟩).withChild ⟨consumed ++ keep, 0⟩) = some run) ∧
      (∃ t1 e t2, run.trace = t1 ++ e :: t2 ∧ IsTerminalNotice e ∧
        (∀ x ∈ t1, ¬ IsTerminalNotice x) ∧ (∀ x ∈ t2, ¬ IsNotice x)) :=
  stops_reading_after_first_terminal (demoHost ⟨[], 0⟩) "/opt/vd/updater"
    "note\nyt-dlp is up to date\nUpdating to 9\n".toList 0
    ["note".toList] "yt-dlp is up to date".toList ["Updating to 9".toList]
    rfl rfl (by decide) (by decide) (by decide)

/-! ## C9: one branch per line, by priority -/

/-- C9: for a non-empty trimmed line the loop takes exactly one branch, in
the order "Updating to", "yt-dlp is up to date", "Updated yt-dlp to": with
"Updating to" it prints the in-progress notice and goes on with the rest of
the stream, whatever else the line contains; otherwise with "yt-dlp is up to
date" it prints only the up-to-date notice and stops; otherwise with
"Updated yt-dlp to" it prints only the success notice and stops; otherwise it
prints nothing and goes on. Every run of `main` prints at most one terminal
notice. -/
theorem one_branch_by_priority :
    (∀ (s line rest : List Char) (fuel : Nat),
      nextLine s = some (line, rest) → line ≠ [] →
        (phraseUpdating <:+: line →
          readLoop (fuel + 1) s =
            (readLoop fuel rest).map (fun r => (Event.out msgInProgress :: r.1, r.2))) ∧
        (¬ phraseUpdating <:+: line → phraseUpToDate <:+: line →
          readLoop (fuel + 1) s = some ([Event.out msgUpToDate], rest)) ∧
        (¬ phraseUpdating <:+: line → ¬ phraseUpToDate <:+: line → phraseUpdated <:+: line →
          readLoop (fuel + 1) s = some ([Event.out msgSuccess], rest)) ∧
        (¬ phraseUpdating <:+: line → ¬ phraseUpToDate <:+: line →
          ¬ phraseUpdated <:+: line → readLoop (fuel + 1) s = readLoop fuel rest)) ∧
    (∀ h : Host, ∃ run, main h = some run ∧
      run.trace.countP (fun e => decide (IsTerminalNotice e)) ≤ 1) := by
  constructor
  · intro s line rest fuel hl hne
    rw [readLoop_succ fuel hl]
    refine ⟨?_, ?_, ?_, ?_⟩
    · intro h1
      simp [hne, h1]
    · intro h1 h2
      simp [hne, h1, h2]
    · intro h1 h2 h3
      simp [hne, h1, h2, h3]
    · intro h1 h2 h3
      simp [hne, h1, h2, h3]
  · intro h
    cases hs : h.selfPath with
    | none =>
      refine ⟨_, main_self_fail h hs, ?_⟩
      cases h.win32 <;> decide
    | some p =>
      cases hm : h.fileExists (h.pathAppend (h.parent_path p) "yt-dlp.exe") with
      | false =>
        refine ⟨_, main_missing h p hs hm, ?_⟩
        have h1 : ¬ IsTerminalNotice (Event.out msgNotFound) := by decide
        have h2 := msgExpected_not_terminal (h.pathAppend (h.parent_path p) "yt-dlp.exe")
        have h3 : ¬ IsTerminalNotice (Event.out msgTerminated) := by decide
        have h4 : ¬ IsTerminalNotice Event.cinGet := by decide
        simp [List.countP_cons, h1, h2, h3, h4]
      | true =>
        cases hp : h.spawn ("\"" ++ h.pathAppend (h.parent_path p) "yt-dlp.exe" ++ "\" -U") with
        | none =>
          refine ⟨_, main_spawn_fail h p hs hm hp, ?_⟩
          have h1 : ¬ IsTerminalNotice (Event.out msgChecking) := by decide
          have h2 : ∀ d, ¬ IsTerminalNotice (Event.chdir d) := by
            intro d; simp [IsTerminalNotice]
          have h3 : ∀ d, ¬ IsTerminalNotice (Event.popen d) := by
            intro d; simp [IsTerminalNotice]
          have h4 : ¬ IsTerminalNotice (Event.err msgSpawnFailed) := by decide
          simp [List.countP_cons, h1, h2, h3, h4]
        | some c =>
          refine ⟨_, main_child h p c hs hm hp, ?_⟩
          have h1 : ¬ IsTerminalNotice (Event.out msgChecking) := by decide
          have h2 : ∀ d, ¬ IsTerminalNotice (Event.chdir d) := by
            intro d; simp [IsTerminalNotice]
          have h3 : ∀ d, ¬ IsTerminalNotice (Event.popen d) := by
            intro d; simp [IsTerminalNotice]
          have h4 : ¬ IsTerminalNotice Event.pclose := by decide
          have h5 := msgReturned_not_terminal c.status
          have h6 : ¬ IsTerminalNotice (Event.out msgPressEnter) := by decide
          have h7 : ¬ IsTerminalNotice Event.cinGet := by decide
          have h8 := classifyLines_countP (linesOf c.output)
          by_cases hst : c.status = 0
          · simp [List.countP_append, List.countP_cons, h1, h2, h3, h4, h6, h7, hst]
            exact h8
          · simp [List.countP_append, List.countP_cons, h1, h2, h3, h4, h5, h6, h7, hst]
            exact h8

/-- C9, on a line that has both "Updating to" and "yt-dlp is up to date":
only the in-progress notice is printed and the loop goes on. -/
theorem one_branch_by_priority_witness :
    readLoop 2 "Updating to 1; yt-dlp is up to date\n".toList
      = some ([Event.out msgInProgress], []) :=
  ((one_branch_by_priority.1 "Updating to 1; yt-dlp is up to date\n".toList
    "Updating to 1; yt-dlp is up to date".toList [] 1 (by decide) (by decide)).1
      (by decide)).trans (by decide)

/-! ## C10: reading through the 512-byte buffer against whole lines -/

/-- On an output without NUL whose lines have at most 510 characters, the
strings the loop reads are the lines of the output with their trailing
line terminators removed. -/
theorem linesOf_eq_specLines :
    ∀ s : List Char, (∀ l ∈ splitLines s, l.length ≤ 510) → '\x00' ∉ s →
      linesOf s = specLines s := by
  intro s
  induction s using stream_induction with
  | hnil => intro _ _; rfl
  | hstep s line rest hl ih =>
    intro hlen hnul
    rcases nextLine_cases hl with ⟨a, ha, hla, e, hline⟩ | ⟨a, ha, hla, e, hline⟩ |
        ⟨a, ha, hne, hla, e, hr, hline⟩
    · have hsp : splitLines s = a :: splitLines rest := by rw [e, splitLines_newline a rest ha]
      have hnul_a : '\x00' ∉ a ++ ['\n'] := by
        intro hm
        apply hnul
        rw [e]
        rcases List.mem_append.mp hm with h1 | h1
        · exact List.mem_append_left _ h1
        · exact List.mem_append_right _ (by simp at h1)
      have hnul_r : '\x00' ∉ rest := by
        intro hm
        apply hnul
        rw [e]
        exact List.mem_append_right _ (List.mem_cons_of_mem _ hm)
      have hrest := ih (fun l hlm => hlen l (by rw [hsp]; exact List.mem_cons_of_mem _ hlm)) hnul_r
      rw [linesOf_step hl, hrest, hline, trimLine_cstr_eq _ (by simp; omega),
        cstr_of_no_nul _ hnul_a, stripCRLF_newline]
      unfold specLines
      rw [hsp]
      rfl
    · exfalso
      have hne : a ≠ [] := by
        intro e0
        rw [e0] at hla
        simp at hla
      obtain ⟨m, hm, hsp⟩ := splitLines_front a rest ha hne
      have hmem : m ∈ splitLines s := by
        rw [e]
        rcases hsp with ⟨_, h2⟩ | ⟨_, _, _, _, h3⟩
        · rw [h2]; simp
        · rw [h3]; simp
      have h1 := hlen m hmem
      have h2 := hm.length_le
      omega
    · have hnul_a : '\x00' ∉ a := by rw [← e]; exact hnul
      rw [linesOf_step hl, hr, linesOf_nil, hline, trimLine_cstr_eq _ (by omega),
        cstr_of_no_nul _ hnul_a]
      unfold specLines
      rw [e, splitLines_single a ha hne]
      rfl

/-- C10 as stated fails: every line of the output below has at most 510
characters, yet the loop prints nothing while the line-based classifier
prints the up-to-date notice, because the string built from the buffer ends
at the NUL byte. -/
theorem nul_byte_breaks_line_equivalence :
    (∀ l ∈ splitLines "\x00yt-dlp is up to date\n".toList, l.length ≤ 510) ∧
    readLoop ("\x00yt-dlp is up to date\n".toList.length + 1) "\x00yt-dlp is up to date\n".toList
      = some ([], []) ∧
    classifyLines (specLines "\x00yt-dlp is up to date\n".toList) = [Event.out msgUpToDate] ∧
    readLines ("\x00yt-dlp is up to date\n".toList.length + 1) "\x00yt-dlp is up to date\n".toList
      ≠ some (specLines "\x00yt-dlp is up to date\n".toList) :=
  ⟨by decide, by decide, by decide, by decide⟩

/-- C10, amended: when the child output has no NUL byte and each of its
lines has at most 510 characters, the strings the loop reads through the
512-byte buffer are the lines of the output (split at the newlines, trailing
line terminators removed), and the loop prints what the line-based classifier
of the specification prints on them; so does the whole run. Without the
precondition each string read has at most 511 characters. -/
theorem chunked_reading_refines_lines :
    (∀ output : List Char, (∀ l ∈ splitLines output, l.length ≤ 510) → '\x00' ∉ output →
      readLines (output.length + 1) output = some (specLines output) ∧
      (∃ unread, readLoop (output.length + 1) output
        = some (classifyLines (specLines output), unread)) ∧
      (∀ (h : Host) (p : String) (status : Int), h.selfPath = some p →
        h.fileExists (h.pathAppend (h.parent_path p) "yt-dlp.exe") = true →
        main (h.withChild ⟨output, status⟩) =
          some ⟨[Event.out msgChecking, Event.chdir (h.parent_path p),
              Event.popen ("\"" ++ h.pathAppend (h.parent_path p) "yt-dlp.exe" ++ "\" -U")]
            ++ classifyLines (specLines output) ++ [Event.pclose]
            ++ (if status ≠ 0 then [Event.out (msgReturned status)] else [])
            ++ [Event.out msgPressEnter, Event.cinGet], 0⟩)) ∧
    (∀ output : List Char, ∃ lines, readLines (output.length + 1) output = some lines ∧
      ∀ l ∈ lines, l.length ≤ 511) := by
  constructor
  · intro output hlen hnul
    have hlines := linesOf_eq_specLines output hlen hnul
    refine ⟨?_, ?_, ?_⟩
    · rw [readLines_eq output _ (by omega), hlines]
    · obtain ⟨r, hr, _⟩ := readLoop_classify output (output.length + 1) (by omega)
      exact ⟨r, by rw [hr, hlines]⟩
    · intro h p status hself hexists
      have := main_child (h.withChild ⟨output, status⟩) p ⟨output, status⟩ hself hexists rfl
      rw [this]
      simp only [hlines]
      rfl
  · intro output
    exact ⟨linesOf output, readLines_eq output _ (by omega), linesOf_length_le output⟩

/-- C10, amended, on a three-line output with CR LF line ends. -/
theorem chunked_reading_refines_lines_witness :
    readLines ("Updating to 1\r\n\r\nUpdated yt-dlp to 1\r\n".toList.length + 1)
        "Updating to 1\r\n\r\nUpdated yt-dlp to 1\r\n".toList
      = some ["Updating to 1".toList, [], "Updated yt-dlp to 1".toList] :=
  ((chunked_reading_refines_lines.1 "Updating to 1\r\n\r\nUpdated yt-dlp to 1\r\n".toList
    (by decide) (by decide)).1).trans (by decide)

end YtDlpUpdater
